import Mathlib

/-! # hetzner-kube: `cluster kubeconfig`

A shallow embedding of `cmd/cluster_kubeconfig.go`.

* Go strings are byte sequences: `GoString := List Nat`.
* The address rewrite on line 45 is `strings.Replace(doc, private, public, -1)`.
  `Replace`, `Count`, `Index`, `RuneCountInString` and `DecodeRuneInString`
  follow the Go standard library; a slice expression whose bounds are out of
  range is a run-time panic and is modelled by `none`.
* The command body `Run` and its pre-run hook `validateKubeconfigCmd` are
  functions over an explicit world (filesystem, standard input, home directory)
  which also record every call that is visible outside the process in an event
  list. The functions the command reaches through `AppConf`, `clientcmd` and
  `Dump` are parameters (`AppConfig`); they act on nothing but their arguments.
* The filesystem is a map from path to entry, with a list of paths on which
  every system call fails and a list of directories in which nothing can be
  created; of the parents of a path only the one named by `dirname` is looked at.
-/

set_option autoImplicit false

namespace HetznerKube

/-! ## Go strings -/

/-- A Go string: an immutable sequence of bytes. -/
abbrev GoString := List Nat

/-- An ASCII literal of the source as a Go string (one byte per character). -/
def str (s : String) : GoString := s.toList.map Char.toNat

/-- The slice expression `s[lo:hi]`; `none` is the panic "slice bounds out of range". -/
def slice (s : GoString) (lo hi : Int) : Option GoString :=
  if 0 ≤ lo ∧ lo ≤ hi ∧ hi ≤ (s.length : Int) then
    some ((s.drop lo.toNat).take (hi.toNat - lo.toNat))
  else none

/-- The slice expression `s[lo:]`. -/
def sliceFrom (s : GoString) (lo : Int) : Option GoString :=
  slice s lo (s.length : Int)

/-- Go `strings.HasPrefix(s, pre)`: `len(s) >= len(pre) && s[:len(pre)] == pre`. -/
def HasPrefix (s pre : GoString) : Bool :=
  decide (pre.length ≤ s.length) && decide (s.take pre.length = pre)

/-- First byte offset at which `substr` starts in `s`, if there is one. -/
def indexOpt (substr : GoString) : GoString → Option Nat
  | [] => if HasPrefix [] substr then some 0 else none
  | c :: t =>
    if HasPrefix (c :: t) substr then some 0
    else (indexOpt substr t).map (· + 1)

/-- Go `strings.Index(s, substr)`: the index of the first instance of `substr` in `s`,
or `-1` if `substr` is not present in `s`. -/
def Index (s substr : GoString) : Int :=
  match indexOpt substr s with
  | some i => (i : Int)
  | none => -1

/-! ### UTF-8 (package `unicode/utf8`) -/

/-- Table `first` of `unicode/utf8`: information about the first byte of an encoding. -/
def first (b : Nat) : Nat :=
  if b < 0x80 then 0xF0            -- as: ASCII
  else if b < 0xC2 then 0xF1       -- xx: invalid
  else if b < 0xE0 then 0x02       -- s1
  else if b = 0xE0 then 0x13       -- s2
  else if b < 0xED then 0x03       -- s3
  else if b = 0xED then 0x23       -- s4
  else if b < 0xF0 then 0x03       -- s3
  else if b = 0xF0 then 0x34       -- s5
  else if b < 0xF4 then 0x04       -- s6
  else if b = 0xF4 then 0x44       -- s7
  else 0xF1                        -- xx

/-- Table `acceptRanges` of `unicode/utf8`: `(lo, hi)` for the second byte. -/
def acceptRanges (i : Nat) : Nat × Nat :=
  match i with
  | 0 => (0x80, 0xBF)
  | 1 => (0xA0, 0xBF)
  | 2 => (0x80, 0x9F)
  | 3 => (0x90, 0xBF)
  | 4 => (0x80, 0x8F)
  | _ => (0, 0)

/-- The width returned by `utf8.DecodeRuneInString(s)`: `0` for the empty string,
`1` for ASCII and for every invalid or short encoding, else the encoded size. -/
def DecodeRuneInString (s : GoString) : Nat :=
  match s with
  | [] => 0
  | s0 :: _ =>
    let x := first s0
    if x ≥ 0xF0 then 1
    else
      let sz := x % 8
      let accept := acceptRanges (x / 16)
      if s.length < sz then 1
      else
        let s1 := s.getD 1 0
        if s1 < accept.1 ∨ accept.2 < s1 then 1
        else if sz ≤ 2 then 2
        else
          let s2 := s.getD 2 0
          if s2 < 0x80 ∨ 0xBF < s2 then 1
          else if sz ≤ 3 then 3
          else
            let s3 := s.getD 3 0
            if s3 < 0x80 ∨ 0xBF < s3 then 1
            else 4

/-- One step of the loop of `utf8.RuneCountInString`: the amount `i` advances by
when the remaining text is `s` (non-empty). -/
def runeStep (s : GoString) : Nat :=
  match s with
  | [] => 1
  | c :: _ =>
    if c < 0x80 then 1
    else
      let x := first c
      if x = 0xF1 then 1
      else
        let size := x % 8
        if size > s.length then 1
        else
          let accept := acceptRanges (x / 16)
          let c1 := s.getD 1 0
          if c1 < accept.1 ∨ accept.2 < c1 then 1
          else if size = 2 then 2
          else
            let c2 := s.getD 2 0
            if c2 < 0x80 ∨ 0xBF < c2 then 1
            else if size = 3 then 3
            else
              let c3 := s.getD 3 0
              if c3 < 0x80 ∨ 0xBF < c3 then 1
              else size

/-- Go `utf8.RuneCountInString(s)`: `for i := 0; i < ns; n++ { ...; i += size }`.
The step is at least one byte (`runeStep_pos`), so advancing by `runeStep` from
`c :: t` is advancing by `runeStep - 1` from `t` (`RuneCountInString_cons`). -/
def RuneCountInString (s : GoString) : Nat :=
  match s with
  | [] => 0
  | c :: t => RuneCountInString (t.drop (runeStep (c :: t) - 1)) + 1
termination_by s.length
decreasing_by
  simp only [List.length_drop, List.length_cons]
  omega

/-- Go `bytealg.CountString(s, c)`: the number of bytes of `s` equal to `c`. -/
def CountString (s : GoString) (c : Nat) : Nat :=
  match s with
  | [] => 0
  | x :: t => if x = c then CountString t c + 1 else CountString t c

/-- The general loop of `strings.Count`:
`for { i := Index(s, substr); if i == -1 { return n }; n++; s = s[i+len(substr):] }`.
The slice is always in range (`indexOpt_some_le`). -/
def countLoop (s substr : GoString) (hsub : substr ≠ []) (n : Nat) : Nat :=
  match hi : indexOpt substr s with
  | none => n
  | some i => countLoop (s.drop (i + substr.length)) substr hsub (n + 1)
termination_by s.length
decreasing_by
  have hl : 0 < substr.length := List.length_pos.mpr hsub
  have hs : 0 < s.length := by
    cases s with
    | nil =>
      have hne : ¬ substr.length = 0 := by omega
      simp [indexOpt, HasPrefix, hne] at hi
    | cons c t => simp
  simp only [List.length_drop]
  omega

/-- Go `strings.Count(s, substr)`: the number of non-overlapping instances of `substr`
in `s`; for an empty `substr` it is `1 +` the number of runes of `s`. -/
def Count (s substr : GoString) : Nat :=
  if h : substr = [] then RuneCountInString s + 1
  else if substr.length = 1 then CountString s (substr.getD 0 0)
  else countLoop s substr h 0

/-- The replacement loop of `strings.Replace`, `k` iterations still to run:
```
for i := 0; i < n; i++ {
  j := start
  if len(old) == 0 {
    if i > 0 { _, wid := utf8.DecodeRuneInString(s[start:]); j += wid }
  } else {
    j += Index(s[start:], old)
  }
  b.WriteString(s[start:j]); b.WriteString(new)
  start = j + len(old)
}
b.WriteString(s[start:])
```
-/
def replaceLoop (s old new : GoString) :
    Nat → Nat → Int → GoString → Option GoString
  | 0, _, start, b =>
    match sliceFrom s start with
    | none => none
    | some tail => some (b ++ tail)
  | k + 1, i, start, b =>
    let j : Option Int :=
      if old.length = 0 then
        if i > 0 then
          (sliceFrom s start).map (fun rest => start + (DecodeRuneInString rest : Int))
        else some start
      else (sliceFrom s start).map (fun rest => start + Index rest old)
    match j with
    | none => none
    | some j =>
      match slice s start j with
      | none => none
      | some piece =>
        replaceLoop s old new k (i + 1) (j + (old.length : Int)) (b ++ piece ++ new)

/-- Go `strings.Replace(s, old, new, n)`: a copy of `s` with the first `n`
non-overlapping instances of `old` replaced by `new`; no limit when `n < 0`.
`none` is a run-time panic. -/
def Replace (s old new : GoString) (n : Int) : Option GoString :=
  if old = new ∨ n = 0 then some s
  else
    let m : Int := (Count s old : Int)
    if m = 0 then some s
    else
      let n : Int := if n < 0 ∨ m < n then m else n
      replaceLoop s old new n.toNat 0 0 []

/-- Go `strings.ContainsAny(s, chars)` for ASCII `chars`: some byte of `s` is in `chars`. -/
def ContainsAny (s chars : GoString) : Bool :=
  s.any (fun b => chars.contains b)

/-! ## The property, in the words of the specification -/

/-- Scan of the document for the pieces lying between the successive leftmost
non-overlapping occurrences of `old`: `skip` bytes of a recognised occurrence are
still to be passed over, `cur` is the piece collected so far. -/
def piecesAux (old : GoString) : GoString → Nat → GoString → List GoString
  | [], _, cur => [cur]
  | _ :: t, skip + 1, cur => piecesAux old t skip cur
  | c :: t, 0, cur =>
    if old <+: c :: t then cur :: piecesAux old t (old.length - 1) []
    else piecesAux old t 0 (cur ++ [c])

/-- The pieces of `doc` between the successive leftmost non-overlapping occurrences
of `old`, in order. -/
def piecesBetween (doc old : GoString) : List GoString :=
  piecesAux old doc 0 []

/-- The pieces joined by `sep`. -/
def joinWith (sep : GoString) : List GoString → GoString
  | [] => []
  | [p] => p
  | p :: q :: rest => p ++ sep ++ joinWith sep (q :: rest)

/-! ## The command's environment -/

/-- The fields of `clustermanager.Node` the command reads. -/
structure Node where
  IPAddress : GoString
  PrivateIPAddress : GoString
  SSHKeyName : GoString
  deriving DecidableEq

/-- A cluster of the directory (`clustermanager.Cluster`). -/
structure Cluster where
  Name : GoString
  deriving DecidableEq

/-- A `clientcmd.ClientConfig` built from a kubeconfig document. -/
structure ClientConfig where
  payload : GoString
  deriving DecidableEq

/-- The `api.Config` a client configuration holds. -/
structure Config where
  payload : GoString
  deriving DecidableEq

/-- The ambient `AppConf` and the collaborators reached through it. A Go `error`
is an `Option GoString`: `none` is `nil`, `some msg` an error with that message;
a nil pointer is `none`. -/
structure AppConfig where
  /-- The lookup `AppConf.Config.FindClusterByName(name)`: index and cluster. -/
  FindClusterByName : GoString → Int × Option Cluster
  /-- The call `provider.GetMasterNode()` of the provider built for the cluster. -/
  GetMasterNode : Cluster → Option Node × Option GoString
  /-- The call `AppConf.SSHClient.(*SSHCommunicator).CapturePassphrase(keyName)`. -/
  CapturePassphrase : GoString → Option GoString
  /-- The call `AppConf.SSHClient.RunCmd(node, command)`: output and error. -/
  RunCmd : Node → GoString → GoString × Option GoString
  /-- The call `clientcmd.NewClientConfigFromBytes(bytes)`; the error is dropped by
  the caller, so only the configuration (nil on failure) is kept. -/
  NewClientConfigFromBytes : GoString → Option ClientConfig
  /-- The call `cfg.RawConfig()`; the error is dropped by the caller. -/
  RawConfig : ClientConfig → Config
  /-- The text `Dump(c)` prints. -/
  Dump : Config → GoString

/-- The flags the command reads with `cmd.Flags().GetBool`. -/
structure Flags where
  print : Bool
  force : Bool

/-- A filesystem entry. -/
inductive Entry
  | file (content : GoString)
  | dir
  deriving DecidableEq

/-- Error numbers of the system calls the command makes. -/
inductive Errno
  | ENOENT
  | EACCES
  | ENOTDIR
  | EISDIR
  deriving DecidableEq

/-- The operating-system state the command runs in. -/
structure World where
  /-- Path to entry; the first binding of a path is the one in force. -/
  fs : List (GoString × Entry)
  /-- Paths on which every system call of this process fails with `EACCES`. -/
  denied : List GoString
  /-- Directories in which this process may not create an entry. -/
  readOnly : List GoString
  /-- The bytes not yet read from standard input. -/
  stdin : GoString
  /-- The home directory of `user.Current()`; `none` when the lookup fails. -/
  homeDir : Option GoString
  deriving DecidableEq

/-- The entry at a path. -/
def find (fs : List (GoString × Entry)) (p : GoString) : Option Entry :=
  match fs with
  | [] => none
  | (q, e) :: rest => if q = p then some e else find rest p

/-- The directory part of a path: everything before its last `/`. -/
def dirname (p : GoString) : GoString :=
  ((p.reverse.dropWhile (fun b => b ≠ 47)).drop 1).reverse

/-- The error of `os.Stat(p)`: nil for an existing entry, `ENOTDIR` below a regular
file, else `ENOENT`. -/
def Stat (w : World) (p : GoString) : Option Errno :=
  if p ∈ w.denied then some Errno.EACCES
  else
    match find w.fs p with
    | some _ => none
    | none =>
      match find w.fs (dirname p) with
      | some (Entry.file _) => some Errno.ENOTDIR
      | _ => some Errno.ENOENT

/-- The test `os.IsNotExist(err)`. -/
def IsNotExist (err : Option Errno) : Bool :=
  decide (err = some Errno.ENOENT)

/-- The call `os.MkdirAll(p, perm)`: nothing to do for an existing directory, an error
for an existing file, below a regular file or in a directory that is read-only, else
the directory (with its missing parents) is created. -/
def MkdirAll (w : World) (p : GoString) : Option Errno × World :=
  if p ∈ w.denied then (some Errno.EACCES, w)
  else
    match find w.fs p with
    | some Entry.dir => (none, w)
    | some (Entry.file _) => (some Errno.ENOTDIR, w)
    | none =>
      match find w.fs (dirname p) with
      | some (Entry.file _) => (some Errno.ENOTDIR, w)
      | _ =>
        if dirname p ∈ w.readOnly then (some Errno.EACCES, w)
        else (none, { w with fs := (p, Entry.dir) :: w.fs })

/-- The call `ioutil.WriteFile(p, data, perm)`: truncates the file, or creates it in an
existing directory that is not read-only, and writes `data`. -/
def WriteFile (w : World) (p data : GoString) : Option Errno × World :=
  if p ∈ w.denied then (some Errno.EACCES, w)
  else
    match find w.fs (dirname p) with
    | some Entry.dir =>
      match find w.fs p with
      | some Entry.dir => (some Errno.EISDIR, w)
      | some (Entry.file _) => (none, { w with fs := (p, Entry.file data) :: w.fs })
      | none =>
        if dirname p ∈ w.readOnly then (some Errno.EACCES, w)
        else (none, { w with fs := (p, Entry.file data) :: w.fs })
    | some (Entry.file _) => (some Errno.ENOTDIR, w)
    | none => (some Errno.ENOENT, w)

/-- The call `bufio.NewReader(os.Stdin).ReadString(delim)` on the unread input: the
bytes up to and including the first `delim` and a nil error, or all that is left and
`io.EOF`; the third component is the input left unread. -/
def ReadString (delim : Nat) (input : GoString) : GoString × Option GoString × GoString :=
  if delim ∈ input then
    (input.takeWhile (fun b => b ≠ delim) ++ [delim], none,
      (input.dropWhile (fun b => b ≠ delim)).drop 1)
  else (input, some (str "EOF"), [])

/-- What the command does that is visible outside the process, in order. -/
inductive Event
  | CapturePassphrase (keyName : GoString)
  | RunCmd (node : Node) (command : GoString)
  | Println (text : GoString)
  | Dump (text : GoString)
  | Stat (path : GoString) (err : Option Errno)
  | MkdirAll (path : GoString) (err : Option Errno)
  | ReadString
  | WriteFile (path data : GoString) (err : Option Errno)
  deriving DecidableEq

/-- How the command ends. -/
inductive Outcome
  | returned
  | fatal (msg : GoString)
  | panicked
  deriving DecidableEq

/-- The end of a run: outcome, final world, and the events in order. -/
structure Result where
  outcome : Outcome
  world : World
  events : List Event
  deriving DecidableEq

/-- Modelled from the spec: the helper `FatalOnError` is called by the command but
defined elsewhere in the repository. "All errors are surfaced to the operator as a
fatal message" and "every error is terminal to the single invocation": a non-nil
error ends the process with that message, a nil error lets the command go on.
`none` means go on. -/
def FatalOnError (err : Option GoString) : Option Outcome :=
  match err with
  | some msg => some (Outcome.fatal msg)
  | none => none

/-- The print branch of `Run` (lines 52 to 62). -/
def printBranch (app : AppConfig) (kubeConfigContent : GoString) (w : World)
    (ev : List Event) : Result :=
  match app.NewClientConfigFromBytes kubeConfigContent with
  | none => ⟨Outcome.panicked, w, ev⟩
  | some cfg =>
    let c := app.RawConfig cfg
    ⟨Outcome.returned, w, ev ++ [Event.Dump (app.Dump c)]⟩

/-- Lines 70 to 72 of `Run`:
`if _, err := os.Stat(path); os.IsNotExist(err) { os.MkdirAll(path, 0755) }`;
the error of `MkdirAll` is dropped. -/
def ensureDir (path : GoString) (w : World) (ev : List Event) : World × List Event :=
  let err := Stat w path
  if IsNotExist err then
    ((MkdirAll w path).2, ev ++ [Event.Stat path err, Event.MkdirAll path (MkdirAll w path).1])
  else (w, ev ++ [Event.Stat path err])

/-- Lines 86 to 88 of `Run`: `ioutil.WriteFile(kubeconfigPath, ...)`, whose error is
dropped, then `fmt.Println("kubeconfig configured")`. -/
def writeConfig (kubeconfigPath kubeConfigContent : GoString) (w : World)
    (ev : List Event) : Result :=
  ⟨Outcome.returned, (WriteFile w kubeconfigPath kubeConfigContent).2,
    ev ++ [Event.WriteFile kubeconfigPath kubeConfigContent
            (WriteFile w kubeconfigPath kubeConfigContent).1,
           Event.Println (str "kubeconfig configured")]⟩

/-- Lines 76 to 88 of `Run`: the overwrite question, then the write. -/
def confirmAndWrite (force : Bool) (kubeconfigPath kubeConfigContent : GoString) (w : World)
    (ev : List Event) : Result :=
  let err := Stat w kubeconfigPath
  let ev := ev ++ [Event.Stat kubeconfigPath err]
  if !force && decide (err = none) then
    let ev := ev ++ [Event.Println (str
      "There already exists a kubeconfig. Overwrite? (use -f to suppress this question) [yN]:")]
    let line := ReadString 10 w.stdin
    let answer := line.1
    let err := line.2.1
    let w := { w with stdin := line.2.2 }
    let ev := ev ++ [Event.ReadString]
    match FatalOnError err with
    | some o => ⟨o, w, ev⟩
    | none =>
      if !ContainsAny answer (str "yY") then ⟨Outcome.fatal (str "aborted"), w, ev⟩
      else writeConfig kubeconfigPath kubeConfigContent w ev
  else writeConfig kubeconfigPath kubeConfigContent w ev

/-- The install branch of `Run` (lines 63 to 89). -/
def installBranch (force : Bool) (kubeConfigContent : GoString) (w : World)
    (ev : List Event) : Result :=
  let ev := ev ++ [Event.Println (str "create file")]
  match w.homeDir with
  | none => ⟨Outcome.panicked, w, ev⟩
  | some dir =>
    let path := dir ++ str "/.kube"
    let made := ensureDir path w ev
    let kubeconfigPath := path ++ str "/config"
    confirmAndWrite force kubeconfigPath kubeConfigContent made.1 made.2

/-- The body `Run` of `clusterKubeconfigCmd` (lines 32 to 90). A nil pointer that is
dereferenced (`*cluster`, `masterNode.SSHKeyName`, `usr.HomeDir`, `cfg.RawConfig()`)
and an index out of range (`args[0]`) are run-time panics. -/
def Run (app : AppConfig) (flags : Flags) (args : List GoString) (w : World) : Result :=
  match args with
  | [] => ⟨Outcome.panicked, w, []⟩                       -- line 33: args[0]
  | name :: _ =>
    match (app.FindClusterByName name).2 with             -- line 34
    | none => ⟨Outcome.panicked, w, []⟩                   -- line 36: *cluster
    | some cluster =>
      match FatalOnError (app.GetMasterNode cluster).2 with   -- lines 37, 38
      | some o => ⟨o, w, []⟩
      | none =>
        match (app.GetMasterNode cluster).1 with
        | none => ⟨Outcome.panicked, w, []⟩               -- line 40: masterNode.SSHKeyName
        | some masterNode =>
          let ev := [Event.CapturePassphrase masterNode.SSHKeyName]
          match FatalOnError (app.CapturePassphrase masterNode.SSHKeyName) with  -- lines 40, 41
          | some o => ⟨o, w, ev⟩
          | none =>
            let command := str "cat /etc/kubernetes/admin.conf"
            let ran := app.RunCmd masterNode command      -- line 43
            let ev := ev ++ [Event.RunCmd masterNode command]
            -- line 45, before the error of line 43 is looked at
            match Replace ran.1 masterNode.PrivateIPAddress masterNode.IPAddress (-1) with
            | none => ⟨Outcome.panicked, w, ev⟩
            | some kubeConfigContent =>
              match FatalOnError ran.2 with               -- line 47
              | some o => ⟨o, w, ev⟩
              | none =>
                if flags.print then printBranch app kubeConfigContent w ev   -- line 52
                else installBranch flags.force kubeConfigContent w ev

/-- The result of the pre-run hook: the error it returns (`none` inside is `nil`), or
`none` for a run-time panic; with the world and the events as for `Run`. -/
structure PreRunResult where
  ret : Option (Option GoString)
  world : World
  events : List Event

/-- The pre-run hook `validateKubeconfigCmd` (lines 93 to 107); the message of line 104
is `fmt.Errorf("cluster '%s' not found", name)`, byte 39 being the quote. -/
def validateKubeconfigCmd (app : AppConfig) (args : List GoString) (w : World) :
    PreRunResult :=
  match args with
  | [] => ⟨none, w, []⟩
  | name :: _ =>
    if name = [] then ⟨some (some (str "flag --name is required")), w, []⟩
    else
      let idx := (app.FindClusterByName name).1
      if idx = -1 then
        ⟨some (some (str "cluster " ++ [39] ++ name ++ [39] ++ str " not found")), w, []⟩
      else ⟨some none, w, []⟩

/-! ## Vocabulary of the statements -/

/-- The remote read command of line 43. -/
def adminConf : GoString := str "cat /etc/kubernetes/admin.conf"

/-- The directory `<home>/.kube` of line 68. -/
def kubeDir (home : GoString) : GoString := home ++ str "/.kube"

/-- The target file `<home>/.kube/config` of line 75. -/
def kubeconfigPath (home : GoString) : GoString := home ++ str "/.kube" ++ str "/config"

/-- The events of lines 40 and 43. -/
def fetchEvents (node : Node) : List Event :=
  [Event.CapturePassphrase node.SSHKeyName, Event.RunCmd node adminConf]

/-- Lines 33 to 47 go through for master node `node`: the cluster and its master
node are found, the passphrase is captured, and the remote command returns `out`
with a nil error. -/
def Fetched (app : AppConfig) (args : List GoString) (node : Node) (out : GoString) : Prop :=
  ∃ name rest cluster, args = name :: rest ∧
    (app.FindClusterByName name).2 = some cluster ∧
    app.GetMasterNode cluster = (some node, none) ∧
    app.CapturePassphrase node.SSHKeyName = none ∧
    app.RunCmd node adminConf = (out, none)

/-- The event touches the local filesystem or standard input. -/
def Event.isLocal : Event → Bool
  | Event.Stat _ _ => true
  | Event.MkdirAll _ _ => true
  | Event.ReadString => true
  | Event.WriteFile _ _ _ => true
  | _ => false

/-- The event is a write of a file. -/
def Event.isWrite : Event → Bool
  | Event.WriteFile _ _ _ => true
  | _ => false

/-- The event writes to standard output. -/
def Event.isOutput : Event → Bool
  | Event.Println _ => true
  | Event.Dump _ => true
  | _ => false

/-- The two addresses do not overlap: `priv` does not occur in `pub`, no proper
non-empty end of `priv` is a beginning of `pub` or begins with `pub`, and no proper
non-empty beginning of `priv` is an end of `pub` or ends with `pub`. -/
def NoOverlap (priv pub : GoString) : Prop :=
  ¬ priv <:+: pub ∧
    (∀ y ∈ priv.tails, y ≠ [] → y ≠ priv → ¬ y <+: pub ∧ ¬ pub <+: y) ∧
    (∀ x ∈ priv.inits, x ≠ [] → x ≠ priv → ¬ x <:+ pub ∧ ¬ pub <:+ x)

/-- The address `pub` occurs neither in a piece nor across the end of a piece into the
copy of `pub` written after it (the last piece has none after it). -/
def freshIn (pub : GoString) : List GoString → Bool
  | [] => true
  | [p] => decide (¬ pub <:+: p)
  | p :: q :: rest => decide (¬ pub <:+: p ++ pub.dropLast) && freshIn pub (q :: rest)

/-! ## The concrete scenario of the specification -/

/-- Master node of cluster "demo": private `10.0.0.5`, public `203.0.113.9`. -/
def demoNode : Node := ⟨str "203.0.113.9", str "10.0.0.5", str "id_rsa"⟩

/-- The document the remote fetch returns in the scenario. -/
def demoDoc : GoString := str "server: https://10.0.0.5:6443\n"

/-- A directory holding the one cluster "demo", whose remote read returns `out`, `err`. -/
def demoApp (out : GoString) (err : Option GoString) : AppConfig where
  FindClusterByName := fun n =>
    if n = str "demo" then (0, some ⟨str "demo"⟩) else (-1, none)
  GetMasterNode := fun _ => (some demoNode, none)
  CapturePassphrase := fun _ => none
  RunCmd := fun _ _ => (out, err)
  NewClientConfigFromBytes := fun b => some ⟨b⟩
  RawConfig := fun c => ⟨c.payload⟩
  Dump := fun c => c.payload

/-- A home directory without `.kube`; `input` waits on standard input. -/
def freshHome (input : GoString) : World :=
  ⟨[], [], [], input, some (str "/home/u")⟩

/-- A home directory with an installed kubeconfig `old`. -/
def installedHome (input : GoString) : World :=
  ⟨[(str "/home/u/.kube/config", Entry.file (str "old")), (str "/home/u/.kube", Entry.dir)],
    [], [], input, some (str "/home/u")⟩

/-- A home directory in which `.kube` is a regular file. -/
def blockedHome (input : GoString) : World :=
  ⟨[(str "/home/u/.kube", Entry.file (str "x"))], [], [], input, some (str "/home/u")⟩

/-- A home directory without `.kube` in which nothing can be created. -/
def readOnlyHome (input : GoString) : World :=
  ⟨[(str "/home/u", Entry.dir)], [], [str "/home/u"], input, some (str "/home/u")⟩

/-! ## Lemmas: `Index`, `Count` and the pieces of a document -/

theorem HasPrefix_iff (s p : GoString) : HasPrefix s p = true ↔ p <+: s := by
  unfold HasPrefix
  rw [List.prefix_iff_eq_take]
  simp only [Bool.and_eq_true, decide_eq_true_eq]
  constructor
  · rintro ⟨_, h⟩
    exact h.symm
  · intro h
    refine ⟨?_, h.symm⟩
    have := congrArg List.length h
    simp only [List.length_take] at this
    omega

theorem indexOpt_nil (old : GoString) (h : old ≠ []) : indexOpt old [] = none := by
  have : ¬ old <+: [] := by simpa using h
  simp [indexOpt, HasPrefix_iff, this]

theorem indexOpt_cons (old : GoString) (c : Nat) (t : GoString) :
    indexOpt old (c :: t) =
      if old <+: c :: t then some 0 else (indexOpt old t).map (· + 1) := by
  simp only [indexOpt, HasPrefix_iff]

/-- Where `Index` finds an occurrence, the text splits around it. -/
theorem indexOpt_some_split (old : GoString) :
    ∀ (t : GoString) (j : Nat), indexOpt old t = some j →
      t = t.take j ++ old ++ t.drop (j + old.length) := by
  intro t
  induction t with
  | nil =>
    intro j h
    simp only [indexOpt, HasPrefix_iff] at h
    split_ifs at h with hp
    have : old = [] := by simpa using hp
    subst this
    simp
  | cons c t ih =>
    intro j h
    rw [indexOpt_cons] at h
    split_ifs at h with hp
    · obtain ⟨r, hr⟩ := hp
      have hj : j = 0 := by simpa using h.symm
      subst hj
      rw [← hr]
      simp
    · cases hi : indexOpt old t with
      | none => simp [hi] at h
      | some j' =>
        simp only [hi, Option.map_some', Option.some.injEq] at h
        subst h
        have := ih j' hi
        simp only [List.take_succ_cons, List.cons_append, List.append_assoc]
        rw [show j' + 1 + old.length = (j' + old.length) + 1 by omega, List.drop_succ_cons]
        congr 1
        simpa using this

theorem indexOpt_some_le (old : GoString) :
    ∀ (t : GoString) (j : Nat), indexOpt old t = some j → j + old.length ≤ t.length := by
  intro t
  induction t with
  | nil =>
    intro j h
    simp only [indexOpt, HasPrefix_iff] at h
    split_ifs at h with hp
    have : old = [] := by simpa using hp
    subst this
    have hj : j = 0 := by simpa using h.symm
    simp [hj]
  | cons c t ih =>
    intro j h
    rw [indexOpt_cons] at h
    split_ifs at h with hp
    · have hj : j = 0 := by simpa using h.symm
      subst hj
      simpa using hp.length_le
    · cases hi : indexOpt old t with
      | none => simp [hi] at h
      | some j' =>
        simp only [hi, Option.map_some', Option.some.injEq] at h
        subst h
        have := ih j' hi
        simp only [List.length_cons]
        omega

theorem indexOpt_none_iff (old : GoString) :
    ∀ t : GoString, indexOpt old t = none ↔ ¬ old <:+: t := by
  intro t
  induction t with
  | nil =>
    simp only [indexOpt, HasPrefix_iff, List.infix_nil, List.prefix_nil]
    split_ifs with h <;> simp [h]
  | cons c t ih =>
    rw [indexOpt_cons, List.infix_cons_iff]
    split_ifs with hp
    · simp [hp]
    · simp [hp, ih]

theorem indexOpt_take_none (old : GoString) (hold : old ≠ []) :
    ∀ (t : GoString) (j : Nat), indexOpt old t = some j → indexOpt old (t.take j) = none := by
  intro t
  induction t with
  | nil =>
    intro j _
    simpa using indexOpt_nil old hold
  | cons c t ih =>
    intro j h
    rw [indexOpt_cons] at h
    split_ifs at h with hp
    · have hj : j = 0 := by simpa using h.symm
      subst hj
      simpa using indexOpt_nil old hold
    · cases hi : indexOpt old t with
      | none => simp [hi] at h
      | some j' =>
        simp only [hi, Option.map_some', Option.some.injEq] at h
        subst h
        rw [List.take_succ_cons, indexOpt_cons]
        have hnp : ¬ old <+: c :: List.take j' t := by
          intro hq
          apply hp
          have : c :: List.take j' t <+: c :: t := by
            rw [← List.take_succ_cons]
            exact List.take_prefix _ _
          exact hq.trans this
        simp [hnp, ih j' hi]

theorem piecesAux_skip (old : GoString) :
    ∀ (a r cur : GoString), piecesAux old (a ++ r) a.length cur = piecesAux old r 0 cur := by
  intro a
  induction a with
  | nil => intro r cur; rfl
  | cons x a ih =>
    intro r cur
    simp only [List.cons_append, List.length_cons, piecesAux]
    exact ih r cur

/-- The scan of the specification, one occurrence at a time. -/
theorem piecesAux_step (old : GoString) (hold : old ≠ []) :
    ∀ (t cur : GoString),
      piecesAux old t 0 cur =
        match indexOpt old t with
        | none => [cur ++ t]
        | some j => (cur ++ t.take j) :: piecesAux old (t.drop (j + old.length)) 0 [] := by
  intro t
  induction t with
  | nil =>
    intro cur
    simp [indexOpt_nil old hold, piecesAux]
  | cons c t ih =>
    intro cur
    rw [indexOpt_cons]
    by_cases hp : old <+: c :: t
    · simp only [piecesAux, hp, if_true, List.take_zero, List.append_nil, Nat.zero_add]
      congr 1
      obtain ⟨r, hr⟩ := hp
      cases old with
      | nil => exact absurd rfl hold
      | cons o old' =>
        simp only [List.cons_append, List.cons.injEq] at hr
        obtain ⟨_, hr⟩ := hr
        subst hr
        simp only [List.length_cons, Nat.add_sub_cancel]
        rw [piecesAux_skip]
        congr 1
        simp
    · simp only [piecesAux, hp, if_false]
      rw [ih]
      cases hi : indexOpt old t with
      | none => simp
      | some j =>
        simp only [Option.map_some', List.take_succ_cons, List.append_assoc, List.singleton_append]
        rw [show j + 1 + old.length = (j + old.length) + 1 by omega, List.drop_succ_cons]

theorem piecesAux_length (old : GoString) :
    ∀ (t : GoString) (k : Nat) (cur cur' : GoString),
      (piecesAux old t k cur).length = (piecesAux old t k cur').length := by
  intro t
  induction t with
  | nil => intro k cur cur'; simp [piecesAux]
  | cons c t ih =>
    intro k cur cur'
    cases k with
    | succ k => simp only [piecesAux]; exact ih k cur cur'
    | zero =>
      simp only [piecesAux]
      split_ifs
      · simp
      · exact ih 0 _ _

theorem piecesAux_ne_nil (old : GoString) :
    ∀ (t : GoString) (k : Nat) (cur : GoString), piecesAux old t k cur ≠ [] := by
  intro t
  induction t with
  | nil => intro k cur; simp [piecesAux]
  | cons c t ih =>
    intro k cur
    cases k with
    | succ k => simp only [piecesAux]; exact ih k cur
    | zero =>
      simp only [piecesAux]
      split_ifs
      · simp
      · exact ih 0 _

theorem CountString_pieces (c : Nat) :
    ∀ (t cur : GoString), CountString t c + 1 = (piecesAux [c] t 0 cur).length := by
  intro t
  induction t with
  | nil => intro cur; simp [CountString, piecesAux]
  | cons x t ih =>
    intro cur
    simp only [CountString, piecesAux, List.length_singleton, Nat.sub_self]
    have hx : ([c] <+: x :: t) ↔ x = c := by
      constructor
      · rintro ⟨r, hr⟩
        simp only [List.singleton_append, List.cons.injEq] at hr
        exact hr.1.symm
      · rintro rfl
        exact ⟨t, rfl⟩
    by_cases h : x = c
    · subst h
      have hp : [x] <+: x :: t := ⟨t, rfl⟩
      simp only [if_true, hp, List.length_cons]
      rw [ih []]
    · have h' : ¬ ([c] <+: x :: t) := fun hh => h (hx.mp hh)
      simp only [h, if_false, h']
      exact ih _

theorem countLoop_pieces (old : GoString) (hold : old ≠ []) :
    ∀ (m : Nat) (t : GoString), t.length ≤ m → ∀ (n : Nat) (cur : GoString),
      countLoop t old hold n + 1 = n + (piecesAux old t 0 cur).length := by
  intro m
  induction m with
  | zero =>
    intro t ht n cur
    have : t = [] := List.length_eq_zero.mp (Nat.le_zero.mp ht)
    subst this
    rw [countLoop]
    split
    · simp [piecesAux]
    · rename_i i hi
      simp [indexOpt_nil old hold] at hi
  | succ m ih =>
    intro t ht n cur
    rw [countLoop, piecesAux_step old hold]
    split
    · rename_i hi
      simp [hi]
    · rename_i i hi
      simp only [hi, List.length_cons]
      have hle := indexOpt_some_le old t i hi
      have hpos : 0 < old.length := List.length_pos.mpr hold
      have hlen : (t.drop (i + old.length)).length ≤ m := by
        simp only [List.length_drop]
        omega
      have := ih (t.drop (i + old.length)) hlen (n + 1) []
      omega

/-- Go `strings.Count` counts the pieces of the specification, less one. -/
theorem Count_pieces (t old : GoString) (hold : old ≠ []) :
    Count t old + 1 = (piecesBetween t old).length := by
  unfold Count piecesBetween
  rw [dif_neg hold]
  split_ifs with h1
  · cases old with
    | nil => exact absurd rfl hold
    | cons o r =>
      have hr : r = [] := by
        simp only [List.length_cons, Nat.add_left_eq_self] at h1
        exact List.length_eq_zero.mp h1
      subst hr
      simpa using CountString_pieces o t []
  · simpa using countLoop_pieces old hold t.length t (le_refl _) 0 []

theorem Count_eq_zero_iff (t old : GoString) (hold : old ≠ []) :
    Count t old = 0 ↔ indexOpt old t = none := by
  have h := Count_pieces t old hold
  unfold piecesBetween at h
  rw [piecesAux_step old hold] at h
  cases hi : indexOpt old t with
  | none => simp only [hi, List.length_singleton] at h; simp; omega
  | some j =>
    simp only [hi, List.length_cons] at h
    have := piecesAux_ne_nil old (t.drop (j + old.length)) 0 []
    have : 0 < (piecesAux old (t.drop (j + old.length)) 0 []).length := List.length_pos.mpr this
    simp
    omega

theorem slice_nat (s : GoString) (lo hi : Nat) (h1 : lo ≤ hi) (h2 : hi ≤ s.length) :
    slice s (lo : Int) (hi : Int) = some ((s.drop lo).take (hi - lo)) := by
  unfold slice
  have : (0 : Int) ≤ lo ∧ (lo : Int) ≤ hi ∧ (hi : Int) ≤ (s.length : Int) := by
    refine ⟨?_, ?_, ?_⟩ <;> omega
  rw [if_pos this]
  simp

theorem sliceFrom_nat (s : GoString) (lo : Nat) (h : lo ≤ s.length) :
    sliceFrom s (lo : Int) = some (s.drop lo) := by
  unfold sliceFrom
  rw [slice_nat s lo s.length h (le_refl _)]
  simp

theorem Index_of_some (old t : GoString) (j : Nat) (h : indexOpt old t = some j) :
    Index t old = (j : Int) := by
  simp [Index, h]

theorem joinWith_cons (sep p : GoString) (ps : List GoString) (h : ps ≠ []) :
    joinWith sep (p :: ps) = p ++ sep ++ joinWith sep ps := by
  cases ps with
  | nil => exact absurd rfl h
  | cons q rest => rfl

/-- The loop of `Replace`, run once per occurrence, writes the pieces joined by `new`. -/
theorem replaceLoop_pieces (s old new : GoString) (hold : old ≠ []) :
    ∀ (k i start : Nat) (b : GoString), start ≤ s.length →
      (piecesAux old (s.drop start) 0 []).length = k + 1 →
      replaceLoop s old new k i (start : Int) b =
        some (b ++ joinWith new (piecesAux old (s.drop start) 0 [])) := by
  intro k
  induction k with
  | zero =>
    intro i start b hs hk
    rw [piecesAux_step old hold] at hk ⊢
    cases hi : indexOpt old (s.drop start) with
    | none =>
      simp only [replaceLoop, sliceFrom_nat s start hs, hi, joinWith, List.nil_append]
    | some j =>
      simp only [hi, List.length_cons] at hk
      have := piecesAux_ne_nil old ((s.drop start).drop (j + old.length)) 0 []
      have : 0 < (piecesAux old ((s.drop start).drop (j + old.length)) 0 []).length :=
        List.length_pos.mpr this
      omega
  | succ k ih =>
    intro i start b hs hk
    rw [piecesAux_step old hold] at hk ⊢
    cases hi : indexOpt old (s.drop start) with
    | none => simp [hi] at hk
    | some j =>
      simp only [hi, List.length_cons, Nat.add_right_cancel_iff] at hk
      have hne : ¬ old.length = 0 := fun h => hold (List.length_eq_zero.mp h)
      have hle := indexOpt_some_le old (s.drop start) j hi
      simp only [List.length_drop] at hle
      have hdrop : (s.drop start).drop (j + old.length) = s.drop (start + j + old.length) := by
        rw [List.drop_drop]
        congr 1
        omega
      rw [hdrop] at hk
      simp only [replaceLoop, sliceFrom_nat s start hs, hne, if_false, Option.map_some',
        Index_of_some old _ j hi]
      have hcast : (start : Int) + (j : Int) = ((start + j : Nat) : Int) := by push_cast; rfl
      rw [hcast, slice_nat s start (start + j) (by omega) (by omega)]
      simp only []
      have hcast2 : ((start + j : Nat) : Int) + (old.length : Int)
          = ((start + j + old.length : Nat) : Int) := by push_cast; rfl
      rw [hcast2, ih (i + 1) (start + j + old.length) _ (by omega) hk]
      simp only [hdrop, Nat.add_sub_cancel_left, List.nil_append, List.append_assoc]
      rw [joinWith_cons _ _ _ (piecesAux_ne_nil old _ 0 [])]
      simp

/-- Joining the pieces with `old` itself gives the text back. -/
theorem joinWith_pieces_self (old : GoString) (hold : old ≠ []) :
    ∀ (m : Nat) (t : GoString), t.length ≤ m → ∀ cur : GoString,
      joinWith old (piecesAux old t 0 cur) = cur ++ t := by
  intro m
  induction m with
  | zero =>
    intro t ht cur
    have : t = [] := List.length_eq_zero.mp (Nat.le_zero.mp ht)
    subst this
    simp [piecesAux, joinWith]
  | succ m ih =>
    intro t ht cur
    rw [piecesAux_step old hold]
    cases hi : indexOpt old t with
    | none => simp [joinWith]
    | some j =>
      simp only []
      rw [joinWith_cons _ _ _ (piecesAux_ne_nil old _ 0 [])]
      have hle := indexOpt_some_le old t j hi
      have hpos : 0 < old.length := List.length_pos.mpr hold
      have hlen : (t.drop (j + old.length)).length ≤ m := by
        simp only [List.length_drop]
        omega
      rw [ih _ hlen []]
      have hsplit := indexOpt_some_split old t j hi
      simp only [List.nil_append, List.append_assoc]
      congr 1
      simpa using hsplit.symm

/-- The rewrite `Replace` with no limit on a non-empty `old`: never panics, and returns the
pieces between the occurrences of `old` joined by `new`. -/
theorem Replace_eq_join (s old new : GoString) (hold : old ≠ []) :
    Replace s old new (-1) = some (joinWith new (piecesBetween s old)) := by
  unfold Replace
  have hc := Count_pieces s old hold
  by_cases hon : old = new
  · subst hon
    simp only [true_or, if_true, piecesBetween]
    rw [joinWith_pieces_self old hold s.length s (le_refl _) []]
    simp
  · have hneg : ¬ (old = new ∨ (-1 : Int) = 0) := by
      rintro (h | h)
      · exact hon h
      · omega
    rw [if_neg hneg]
    simp only []
    by_cases hm : ((Count s old : Nat) : Int) = 0
    · rw [if_pos hm]
      have hm' : Count s old = 0 := by exact_mod_cast hm
      have hi := (Count_eq_zero_iff s old hold).mp hm'
      unfold piecesBetween
      rw [piecesAux_step old hold, hi]
      simp [joinWith]
    · rw [if_neg hm]
      have hlt : ((-1 : Int) < 0 ∨ ((Count s old : Nat) : Int) < -1) := Or.inl (by omega)
      rw [if_pos hlt]
      simp only [Int.toNat_ofNat]
      have := replaceLoop_pieces s old new hold (Count s old) 0 0 [] (Nat.zero_le _)
        (by simpa [piecesBetween] using hc.symm)
      simpa [piecesBetween] using this

/-- No piece contains an occurrence of `old`. -/
theorem pieces_free (old : GoString) (hold : old ≠ []) :
    ∀ (m : Nat) (t : GoString), t.length ≤ m →
      ∀ p ∈ piecesAux old t 0 [], indexOpt old p = none := by
  intro m
  induction m with
  | zero =>
    intro t ht p hp
    have : t = [] := List.length_eq_zero.mp (Nat.le_zero.mp ht)
    subst this
    simp only [piecesAux, List.mem_singleton] at hp
    subst hp
    exact indexOpt_nil old hold
  | succ m ih =>
    intro t ht p hp
    rw [piecesAux_step old hold] at hp
    cases hi : indexOpt old t with
    | none =>
      simp only [hi, List.nil_append, List.mem_singleton] at hp
      subst hp
      exact hi
    | some j =>
      simp only [hi, List.nil_append, List.mem_cons] at hp
      rcases hp with hp | hp
      · subst hp
        exact indexOpt_take_none old hold t j hi
      · have hle := indexOpt_some_le old t j hi
        have hpos : 0 < old.length := List.length_pos.mpr hold
        have hlen : (t.drop (j + old.length)).length ≤ m := by
          simp only [List.length_drop]
          omega
        exact ih _ hlen p hp

theorem mem_joinWith (sep : GoString) :
    ∀ (ps : List GoString) (p : GoString) (b : Nat), p ∈ ps → b ∈ p → b ∈ joinWith sep ps := by
  intro ps
  induction ps with
  | nil => intro p b hp; simp at hp
  | cons q rest ih =>
    intro p b hp hb
    cases rest with
    | nil =>
      simp only [List.mem_singleton] at hp
      subst hp
      simpa [joinWith] using hb
    | cons q' rest' =>
      rw [joinWith_cons _ _ _ (by simp)]
      simp only [List.mem_cons] at hp
      rcases hp with hp | hp
      · subst hp
        simp [hb]
      · have := ih p b (by simpa using hp) hb
        simp [this]

/-- An occurrence cannot straddle a byte that the pattern does not contain. -/
theorem indexOpt_append_cons_none (old : GoString) (x : Nat) (hx : x ∉ old) (r : GoString)
    (hr : indexOpt old r = none) :
    ∀ a : GoString, indexOpt old a = none → indexOpt old (a ++ x :: r) = none := by
  intro a ha
  rw [indexOpt_none_iff] at ha hr ⊢
  rintro ⟨u, v, huv⟩
  -- a ++ x :: r = u ++ old ++ v
  have huv' : u ++ (old ++ v) = a ++ x :: r := by simpa using huv
  rcases List.append_eq_append_iff.mp huv' with ⟨w, hw1, hw2⟩ | ⟨w, hw1, hw2⟩
  · -- a = u ++ w, old ++ v = w ++ x :: r
    rcases List.append_eq_append_iff.mp hw2 with ⟨w', hw3, hw4⟩ | ⟨w', hw3, hw4⟩
    · -- w = old ++ w'
      apply ha
      exact ⟨u, w', by rw [hw1, hw3]; simp⟩
    · -- old = w ++ w', x :: r = w' ++ v
      cases w' with
      | nil =>
        apply ha
        exact ⟨u, [], by rw [hw1, hw3]; simp⟩
      | cons y w'' =>
        simp only [List.cons_append, List.cons.injEq] at hw4
        apply hx
        rw [hw3, hw4.1]
        simp
  · -- u = a ++ w, x :: r = w ++ old ++ v
    cases w with
    | nil =>
      simp only [List.nil_append] at hw2
      cases old with
      | nil => exact ha ⟨[], a, by simp⟩
      | cons o old' =>
        simp only [List.cons_append, List.cons.injEq] at hw2
        apply hx
        rw [hw2.1]
        simp
    | cons y w' =>
      simp only [List.cons_append, List.cons.injEq] at hw2
      apply hr
      exact ⟨w', v, by rw [hw2.2]; simp⟩

theorem indexOpt_append_sep_none (old new : GoString) (hold : old ≠ [])
    (hdisj : ∀ b ∈ new, b ∉ old) (r : GoString) (hr : indexOpt old r = none) :
    ∀ a : GoString, indexOpt old a = none → new ≠ [] → indexOpt old (a ++ new ++ r) = none := by
  induction new with
  | nil => intro a _ h; exact absurd rfl h
  | cons x new' ih =>
    intro a ha _
    have hx : x ∉ old := hdisj x (by simp)
    have hd' : ∀ b ∈ new', b ∉ old := fun b hb => hdisj b (by simp [hb])
    have htail : indexOpt old (new' ++ r) = none := by
      cases new' with
      | nil => simpa using hr
      | cons y new'' =>
        have := ih hd' [] (indexOpt_nil old hold) (by simp)
        simpa using this
    have := indexOpt_append_cons_none old x hx (new' ++ r) htail a ha
    simpa using this

/-- If `new` shares no byte with `old`, joining `old`-free pieces by `new` creates no
occurrence of `old`. -/
theorem joinWith_free (old new : GoString) (hold : old ≠ []) (hnew : new ≠ [])
    (hdisj : ∀ b ∈ new, b ∉ old) :
    ∀ ps : List GoString, (∀ p ∈ ps, indexOpt old p = none) →
      indexOpt old (joinWith new ps) = none := by
  intro ps
  induction ps with
  | nil => intro _; simpa [joinWith] using indexOpt_nil old hold
  | cons p rest ih =>
    intro h
    cases rest with
    | nil => simpa [joinWith] using h p (by simp)
    | cons q rest' =>
      rw [joinWith_cons _ _ _ (by simp)]
      have hr := ih (fun p' hp' => h p' (by simp [hp']))
      exact indexOpt_append_sep_none old new hold hdisj _ hr p (h p (by simp)) hnew

/-- A text none of whose bytes is the first byte of the pattern has no occurrence;
followed by the pattern, the first occurrence is right after it. -/
theorem indexOpt_after (new : GoString) (f : Nat) (new' : GoString) (hnew : new = f :: new') :
    ∀ (p r : GoString), f ∉ p → indexOpt new (p ++ new ++ r) = some p.length := by
  intro p
  induction p with
  | nil =>
    intro r _
    subst hnew
    simp only [List.nil_append, List.cons_append, indexOpt_cons, List.length_nil]
    rw [if_pos]
    exact ⟨r, rfl⟩
  | cons x p ih =>
    intro r hf
    simp only [List.mem_cons, not_or] at hf
    simp only [List.cons_append, indexOpt_cons, List.length_cons]
    have hnp : ¬ new <+: x :: (p ++ new ++ r) := by
      subst hnew
      rintro ⟨u, hu⟩
      simp only [List.cons_append, List.cons.injEq] at hu
      exact hf.1 hu.1
    have := ih r hf.2
    rw [if_neg hnp, this]
    rfl

theorem indexOpt_none_of_not_mem (new : GoString) (f : Nat) (new' : GoString)
    (hnew : new = f :: new') (p : GoString) (hf : f ∉ p) : indexOpt new p = none := by
  rw [indexOpt_none_iff]
  rintro ⟨u, v, huv⟩
  apply hf
  rw [← huv, hnew]
  simp

/-- Splitting what was joined: if the first byte of the separator occurs in no piece,
the pieces between the occurrences of the separator are the pieces joined. -/
theorem pieces_joinWith (new : GoString) (f : Nat) (new' : GoString) (hnew : new = f :: new') :
    ∀ ps : List GoString, ps ≠ [] → (∀ p ∈ ps, f ∉ p) →
      piecesAux new (joinWith new ps) 0 [] = ps := by
  have hne : new ≠ [] := by rw [hnew]; simp
  intro ps
  induction ps with
  | nil => intro h; exact absurd rfl h
  | cons p rest ih =>
    intro _ h
    cases rest with
    | nil =>
      rw [piecesAux_step new hne]
      simp only [joinWith, indexOpt_none_of_not_mem new f new' hnew p (h p (by simp))]
      simp
    | cons q rest' =>
      rw [joinWith_cons _ _ _ (by simp), piecesAux_step new hne,
        indexOpt_after new f new' hnew p _ (h p (by simp))]
      simp only [List.nil_append, List.append_assoc, List.take_left']
      have hd : List.drop (p.length + new.length) (p ++ (new ++ joinWith new (q :: rest')))
          = joinWith new (q :: rest') := by
        rw [← List.append_assoc, ← List.length_append, List.drop_left]
      rw [hd, ih (by simp) (fun p' hp' => h p' (by simp [hp']))]

theorem joinWith_length (sep : GoString) :
    ∀ ps : List GoString, ps ≠ [] →
      (joinWith sep ps).length + sep.length = (ps.map List.length).sum + ps.length * sep.length := by
  intro ps
  induction ps with
  | nil => intro h; exact absurd rfl h
  | cons p rest ih =>
    intro _
    cases rest with
    | nil => simp [joinWith]
    | cons q rest' =>
      rw [joinWith_cons _ _ _ (by simp)]
      have := ih (by simp)
      simp only [List.length_append, List.map_cons, List.sum_cons, List.length_cons] at this ⊢
      have e : (rest'.length + 1 + 1) * sep.length
          = (rest'.length + 1) * sep.length + sep.length := by ring
      omega

theorem slice_some (s : GoString) (lo hi : Int) (p : GoString) (h : slice s lo hi = some p) :
    0 ≤ lo ∧ lo ≤ hi ∧ hi ≤ (s.length : Int) ∧ (p.length : Int) = hi - lo := by
  unfold slice at h
  split_ifs at h with hc
  obtain ⟨h0, h1, h2⟩ := hc
  refine ⟨h0, h1, h2, ?_⟩
  simp only [Option.some.injEq] at h
  subst h
  simp only [List.length_take, List.length_drop]
  omega

/-- With an empty `old`, each iteration of the loop adds one copy of `new` and the
text itself is copied once. -/
theorem replaceLoop_nil_length (s new : GoString) :
    ∀ (k i : Nat) (start : Int) (b r : GoString),
      replaceLoop s [] new k i start b = some r →
      (r.length : Int) = b.length + k * new.length + (s.length - start) := by
  intro k
  induction k with
  | zero =>
    intro i start b r h
    simp only [replaceLoop] at h
    cases hs : sliceFrom s start with
    | none => simp [hs] at h
    | some tail =>
      simp only [hs, Option.some.injEq] at h
      subst h
      have := slice_some s start _ tail hs
      simp only [List.length_append]
      push_cast
      omega
  | succ k ih =>
    intro i start b r h
    simp only [replaceLoop, List.length_nil, if_true] at h
    generalize hj : (if i > 0 then
        (sliceFrom s start).map (fun rest => start + (DecodeRuneInString rest : Int))
      else some start) = j? at h
    cases j? with
    | none => simp at h
    | some j =>
      simp only at h
      cases hp : slice s start j with
      | none => simp [hp] at h
      | some piece =>
        simp only [hp] at h
        have h1 := ih _ _ _ _ h
        have h2 := slice_some s start j piece hp
        simp only [List.length_append] at h1
        push_cast at h1 ⊢
        rw [h1]
        have h3 := h2.2.2.2
        simp only [CharP.cast_eq_zero, add_zero]
        rw [add_mul]
        omega

/-- Rewriting leaves a text as it is exactly when the addresses are equal or the text
has no occurrence of `old`. -/
theorem Replace_fixed_iff (x old new : GoString) :
    Replace x old new (-1) = some x ↔ (old = new ∨ Count x old = 0) := by
  constructor
  · intro h
    by_contra hcon
    simp only [not_or] at hcon
    obtain ⟨hon, hc⟩ := hcon
    by_cases hold : old = []
    · -- empty pattern: the result is strictly longer
      subst hold
      have hnew : new ≠ [] := fun hn => hon hn.symm
      unfold Replace at h
      have hneg : ¬ (([] : GoString) = new ∨ (-1 : Int) = 0) := by
        rintro (h' | h')
        · exact hon h'
        · omega
      rw [if_neg hneg] at h
      simp only [] at h
      have hm : ¬ ((Count x [] : Nat) : Int) = 0 := by exact_mod_cast hc
      rw [if_neg hm] at h
      have hlt : ((-1 : Int) < 0 ∨ ((Count x [] : Nat) : Int) < -1) := Or.inl (by omega)
      rw [if_pos hlt] at h
      have hl := replaceLoop_nil_length x new _ 0 0 [] x h
      simp only [Int.toNat_ofNat, List.length_nil] at hl
      have hpos : 0 < new.length := List.length_pos.mpr hnew
      have hcpos : 1 ≤ Count x [] := Nat.one_le_iff_ne_zero.mpr hc
      have : (new.length : Int) ≤ (Count x [] : Int) * (new.length : Int) := by
        have := Nat.mul_le_mul_right new.length hcpos
        rw [Nat.one_mul] at this
        exact_mod_cast this
      omega
    · rw [Replace_eq_join x old new hold] at h
      simp only [Option.some.injEq] at h
      have hself := joinWith_pieces_self old hold x.length x (le_refl _) []
      simp only [List.nil_append] at hself
      have hcp := Count_pieces x old hold
      have hne : piecesBetween x old ≠ [] := piecesAux_ne_nil old x 0 []
      have hl1 := joinWith_length new _ hne
      have hl2 := joinWith_length old _ hne
      unfold piecesBetween at h hcp hl1 hl2
      rw [h] at hl1
      rw [hself] at hl2
      -- lengths force the two addresses to have the same length
      have hk : 2 ≤ (piecesAux old x 0 []).length := by omega
      generalize hn : (piecesAux old x 0 []).length = n at hk hl1 hl2 hcp
      have hmul : n * new.length + old.length = n * old.length + new.length := by omega
      have hlen : new.length = old.length := by
        obtain ⟨n', rfl⟩ : ∃ n', n = n' + 1 := ⟨n - 1, by omega⟩
        have hn' : 1 ≤ n' := by omega
        rw [Nat.add_mul, Nat.add_mul] at hmul
        have h3 : n' * new.length = n' * old.length := by omega
        exact Nat.eq_of_mul_eq_mul_left (by omega) h3
      -- and then the first replaced occurrence shows they are equal
      rw [piecesAux_step old hold] at h hn
      cases hi : indexOpt old x with
      | none => simp [hi] at hn; omega
      | some j =>
        simp only [hi, List.nil_append] at h
        rw [joinWith_cons _ _ _ (piecesAux_ne_nil old _ 0 [])] at h
        have hsplit := indexOpt_some_split old x j hi
        have h' := h.trans hsplit
        simp only [List.append_assoc] at h'
        have h4 := List.append_cancel_left h'
        have h5 := (List.append_inj h4 hlen).1
        exact hon h5.symm
  · intro h
    unfold Replace
    rcases h with h | h
    · simp [h]
    · by_cases hon : old = new
      · simp [hon]
      · simp [hon, h]

theorem first_size (b : Nat) :
    (b < 0x80 ∧ first b = 0xF0) ∨ (0x80 ≤ b ∧ first b = 0xF1) ∨
      (0x80 ≤ b ∧ first b < 0xF0 ∧ 2 ≤ first b % 8 ∧ first b % 8 ≤ 4) := by
  generalize hv : first b = v
  unfold first at hv
  by_cases h1 : b < 0x80
  · rw [if_pos h1] at hv; omega
  rw [if_neg h1] at hv
  by_cases h2 : b < 0xC2
  · rw [if_pos h2] at hv; omega
  rw [if_neg h2] at hv
  by_cases h3 : b < 0xE0
  · rw [if_pos h3] at hv; omega
  rw [if_neg h3] at hv
  by_cases h4 : b = 0xE0
  · rw [if_pos h4] at hv; omega
  rw [if_neg h4] at hv
  by_cases h5 : b < 0xED
  · rw [if_pos h5] at hv; omega
  rw [if_neg h5] at hv
  by_cases h6 : b = 0xED
  · rw [if_pos h6] at hv; omega
  rw [if_neg h6] at hv
  by_cases h7 : b < 0xF0
  · rw [if_pos h7] at hv; omega
  rw [if_neg h7] at hv
  by_cases h8 : b = 0xF0
  · rw [if_pos h8] at hv; omega
  rw [if_neg h8] at hv
  by_cases h9 : b < 0xF4
  · rw [if_pos h9] at hv; omega
  rw [if_neg h9] at hv
  by_cases h10 : b = 0xF4
  · rw [if_pos h10] at hv; omega
  rw [if_neg h10] at hv
  omega

/-- The step of `RuneCountInString` and the width of `DecodeRuneInString` on a
non-empty text: the same number, at least one and at most the length. -/
theorem runeStep_spec (c : Nat) (t : GoString) :
    DecodeRuneInString (c :: t) = runeStep (c :: t) ∧ 0 < runeStep (c :: t) ∧
      runeStep (c :: t) ≤ (c :: t).length := by
  have h := first_size c
  generalize hx : first c = x at h
  generalize hr : runeStep (c :: t) = r
  generalize hd : DecodeRuneInString (c :: t) = d
  unfold runeStep at hr
  unfold DecodeRuneInString at hd
  simp only [hx] at hr hd
  have hlen1 : 1 ≤ (c :: t).length := by simp
  generalize (c :: t).length = n at hr hd hlen1 ⊢
  generalize (c :: t).getD 1 0 = s1 at hr hd
  generalize (c :: t).getD 2 0 = s2 at hr hd
  generalize (c :: t).getD 3 0 = s3 at hr hd
  generalize acceptRanges (x / 16) = acc at hr hd
  by_cases h1 : c < 0x80
  · rw [if_pos h1] at hr
    rw [if_pos (by omega)] at hd
    omega
  rw [if_neg h1] at hr
  by_cases h2 : x = 0xF1
  · rw [if_pos h2] at hr
    rw [if_pos (by omega)] at hd
    omega
  rw [if_neg h2] at hr
  rw [if_neg (by omega)] at hd
  by_cases h3 : x % 8 > n
  · rw [if_pos h3] at hr
    rw [if_pos (by omega)] at hd
    omega
  rw [if_neg h3] at hr
  rw [if_neg (by omega)] at hd
  by_cases h4 : s1 < acc.1 ∨ acc.2 < s1
  · rw [if_pos h4] at hr hd
    omega
  rw [if_neg h4] at hr hd
  by_cases h5 : x % 8 = 2
  · rw [if_pos h5] at hr
    rw [if_pos (by omega)] at hd
    omega
  rw [if_neg h5] at hr
  rw [if_neg (by omega)] at hd
  by_cases h6 : s2 < 0x80 ∨ 0xBF < s2
  · rw [if_pos h6] at hr hd
    omega
  rw [if_neg h6] at hr hd
  by_cases h7 : x % 8 = 3
  · rw [if_pos h7] at hr
    rw [if_pos (by omega)] at hd
    omega
  rw [if_neg h7] at hr
  rw [if_neg (by omega)] at hd
  by_cases h8 : s3 < 0x80 ∨ 0xBF < s3
  · rw [if_pos h8] at hr hd
    omega
  rw [if_neg h8] at hr hd
  omega

theorem runeStep_pos (s : GoString) : 0 < runeStep s := by
  cases s with
  | nil => simp [runeStep]
  | cons c t => exact (runeStep_spec c t).2.1

/-- The source loop of `RuneCountInString`: advance by the step, count one rune. -/
theorem RuneCountInString_cons (c : Nat) (t : GoString) :
    RuneCountInString (c :: t) = RuneCountInString ((c :: t).drop (runeStep (c :: t))) + 1 := by
  rw [RuneCountInString]
  have h := runeStep_pos (c :: t)
  obtain ⟨n, hn⟩ : ∃ n, runeStep (c :: t) = n + 1 := ⟨runeStep (c :: t) - 1, by omega⟩
  rw [hn]
  simp

theorem DecodeRuneInString_le (s : GoString) : DecodeRuneInString s ≤ s.length := by
  cases s with
  | nil => simp [DecodeRuneInString]
  | cons c t =>
    have h := runeStep_spec c t
    omega

/-- With an empty `old` no slice of the loop is out of range. -/
theorem replaceLoop_nil_total (s new : GoString) :
    ∀ (k i start : Nat) (b : GoString), start ≤ s.length →
      ∃ r, replaceLoop s [] new k i (start : Int) b = some r := by
  intro k
  induction k with
  | zero =>
    intro i start b hs
    simp only [replaceLoop, sliceFrom_nat s start hs]
    exact ⟨_, rfl⟩
  | succ k ih =>
    intro i start b hs
    simp only [replaceLoop, sliceFrom_nat s start hs, List.length_nil, if_true,
      Option.map_some']
    have hw := DecodeRuneInString_le (s.drop start)
    simp only [List.length_drop] at hw
    by_cases hi : i > 0
    · simp only [hi, if_true]
      have hcast : (start : Int) + (DecodeRuneInString (s.drop start) : Int)
          = ((start + DecodeRuneInString (s.drop start) : Nat) : Int) := by push_cast; rfl
      rw [hcast, slice_nat s start _ (by omega) (by omega)]
      simp only [CharP.cast_eq_zero, add_zero]
      exact ih _ _ _ (by omega)
    · simp only [hi, if_false]
      rw [slice_nat s start start (le_refl _) hs]
      simp only [CharP.cast_eq_zero, add_zero]
      exact ih _ _ _ hs

/-- The rewrite of line 45 never panics. -/
theorem Replace_total (s old new : GoString) : ∃ r, Replace s old new (-1) = some r := by
  by_cases hold : old = []
  · subst hold
    unfold Replace
    by_cases h1 : (([] : GoString) = new ∨ (-1 : Int) = 0)
    · rw [if_pos h1]
      exact ⟨_, rfl⟩
    · rw [if_neg h1]
      simp only []
      by_cases h2 : ((Count s [] : Nat) : Int) = 0
      · rw [if_pos h2]
        exact ⟨_, rfl⟩
      · rw [if_neg h2]
        have hlt : ((-1 : Int) < 0 ∨ ((Count s [] : Nat) : Int) < -1) := Or.inl (by omega)
        rw [if_pos hlt]
        have := replaceLoop_nil_total s new (Count s []) 0 0 [] (Nat.zero_le _)
        simpa using this
  · exact ⟨_, Replace_eq_join s old new hold⟩

/-- An occurrence that ends inside a leading part of the text is found there too. -/
theorem indexOpt_take (old : GoString) :
    ∀ (t : GoString) (j : Nat), indexOpt old t = some j →
      indexOpt old (t.take (j + old.length)) = some j := by
  intro t
  induction t with
  | nil =>
    intro j h
    simpa using h
  | cons c t ih =>
    intro j h
    rw [indexOpt_cons] at h
    by_cases hp : old <+: c :: t
    · rw [if_pos hp] at h
      have hj : j = 0 := by simpa using h.symm
      subst hj
      have hp' : old <+: (c :: t).take (0 + old.length) := by
        rw [Nat.zero_add, List.prefix_take_iff]
        exact ⟨hp, le_refl _⟩
      cases hto : (c :: t).take (0 + old.length) with
      | nil =>
        rw [hto] at hp'
        have : old = [] := by simpa using hp'
        subst this
        simp [indexOpt, HasPrefix]
      | cons x r =>
        rw [hto] at hp'
        rw [indexOpt_cons, if_pos hp']
    · rw [if_neg hp] at h
      cases hi : indexOpt old t with
      | none => simp [hi] at h
      | some j' =>
        simp only [hi, Option.map_some', Option.some.injEq] at h
        subst h
        rw [show j' + 1 + old.length = (j' + old.length) + 1 by omega, List.take_succ_cons,
          indexOpt_cons]
        have hnp : ¬ old <+: c :: List.take (j' + old.length) t := by
          intro hq
          apply hp
          have : c :: List.take (j' + old.length) t <+: c :: t := by
            rw [← List.take_succ_cons]
            exact List.take_prefix _ _
          exact hq.trans this
        rw [if_neg hnp, ih j' hi]
        rfl

/-- Every piece but the last is followed by the leftmost occurrence after it: in the
piece followed by `old`, the first occurrence of `old` starts where the piece ends. -/
theorem pieces_leftmost (old : GoString) (hold : old ≠ []) :
    ∀ (m : Nat) (t : GoString), t.length ≤ m →
      ∀ p ∈ (piecesAux old t 0 []).dropLast, Index (p ++ old) old = (p.length : Int) := by
  intro m
  induction m with
  | zero =>
    intro t ht p hp
    have : t = [] := List.length_eq_zero.mp (Nat.le_zero.mp ht)
    subst this
    simp [piecesAux] at hp
  | succ m ih =>
    intro t ht p hp
    rw [piecesAux_step old hold] at hp
    cases hi : indexOpt old t with
    | none => simp [hi] at hp
    | some j =>
      simp only [hi, List.nil_append] at hp
      rw [List.dropLast_cons_of_ne_nil (piecesAux_ne_nil old _ 0 [])] at hp
      simp only [List.mem_cons] at hp
      have hle := indexOpt_some_le old t j hi
      rcases hp with hp | hp
      · subst hp
        have h1 := indexOpt_take old t j hi
        have hsplit := indexOpt_some_split old t j hi
        have h2 : t.take (j + old.length) = t.take j ++ old := by
          conv_lhs => rw [hsplit]
          have hlen : (t.take j).length = j := by
            rw [List.length_take]; omega
          rw [List.append_assoc, List.take_append_eq_append_take, List.take_append_eq_append_take]
          simp only [hlen, List.take_take]
          have e1 : min (j + old.length) j = j := by omega
          have e2 : j + old.length - j = old.length := by omega
          rw [e1, e2]
          simp
        rw [h2] at h1
        rw [Index_of_some _ _ _ h1, List.length_take]
        congr 1
        omega
      · have hpos : 0 < old.length := List.length_pos.mpr hold
        have hlen : (t.drop (j + old.length)).length ≤ m := by
          simp only [List.length_drop]
          omega
        exact ih _ hlen p hp

theorem indexOpt_none_of_Count (t old : GoString) (hold : old ≠ []) (h : Count t old = 0) :
    ¬ old <:+: t :=
  (indexOpt_none_iff old t).mp ((Count_eq_zero_iff t old hold).mp h)

theorem mem_of_infix_mem (old t : GoString) (h : old <:+: t) : ∀ b ∈ old, b ∈ t := by
  obtain ⟨u, v, huv⟩ := h
  intro b hb
  rw [← huv]
  simp [hb]

/-- If no byte of `new` occurs in the text, the rewritten text has no occurrence of a
non-empty `old`, and its occurrences of `new` are the copies written, one for each
occurrence of `old` replaced. -/
theorem join_counts (doc old new : GoString) (hold : old ≠ []) (hnew : new ≠ [])
    (hfresh : ∀ b ∈ new, b ∉ doc) :
    Count (joinWith new (piecesBetween doc old)) old = 0 ∧
      Count (joinWith new (piecesBetween doc old)) new = Count doc old := by
  have hself := joinWith_pieces_self old hold doc.length doc (le_refl _) []
  simp only [List.nil_append] at hself
  have hmem : ∀ p ∈ piecesBetween doc old, ∀ b ∈ p, b ∈ doc := by
    intro p hp b hb
    have := mem_joinWith old _ p b hp hb
    unfold piecesBetween at this
    rwa [hself] at this
  constructor
  · rw [Count_eq_zero_iff _ _ hold]
    by_cases hocc : indexOpt old doc = none
    · unfold piecesBetween
      rw [piecesAux_step old hold, hocc]
      simpa [joinWith] using hocc
    · have hinf : old <:+: doc := by
        by_contra hcon
        exact hocc ((indexOpt_none_iff old doc).mpr hcon)
      have hdisj : ∀ b ∈ new, b ∉ old :=
        fun b hb hbo => hfresh b hb (mem_of_infix_mem old doc hinf b hbo)
      exact joinWith_free old new hold hnew hdisj _
        (pieces_free old hold doc.length doc (le_refl _))
  · cases hn : new with
    | nil => exact absurd hn hnew
    | cons f new' =>
      have hf : ∀ p ∈ piecesBetween doc old, f ∉ p := by
        intro p hp hfp
        exact hfresh f (by rw [hn]; simp) (hmem p hp f hfp)
      have h1 := pieces_joinWith (f :: new') f new' rfl (piecesBetween doc old)
        (piecesAux_ne_nil old doc 0 []) hf
      have h2 := Count_pieces (joinWith (f :: new') (piecesBetween doc old)) (f :: new')
        (by simp)
      have h3 := Count_pieces doc old hold
      unfold piecesBetween at h1 h2 h3 ⊢
      rw [h1] at h2
      omega

/-- Where `Index` finds an occurrence, none starts earlier. -/
theorem indexOpt_first (old : GoString) :
    ∀ (t : GoString) (j : Nat), indexOpt old t = some j →
      ∀ k, k < j → ¬ old <+: t.drop k := by
  intro t
  induction t with
  | nil =>
    intro j h k hk
    simp only [indexOpt, HasPrefix_iff] at h
    split_ifs at h
    have hj : j = 0 := by simpa using h.symm
    omega
  | cons c t ih =>
    intro j h k hk
    rw [indexOpt_cons] at h
    by_cases hp : old <+: c :: t
    · rw [if_pos hp] at h
      have hj : j = 0 := by simpa using h.symm
      omega
    · rw [if_neg hp] at h
      cases hi : indexOpt old t with
      | none => simp [hi] at h
      | some j' =>
        simp only [hi, Option.map_some', Option.some.injEq] at h
        subst h
        cases k with
        | zero => simpa using hp
        | succ k' =>
          rw [List.drop_succ_cons]
          exact ih j' hi k' (by omega)

/-- An occurrence at offset `k` puts the first occurrence at `k` or before. -/
theorem indexOpt_le_of_occurrence (old t : GoString) (k : Nat) (h : old <+: t.drop k) :
    ∃ j, indexOpt old t = some j ∧ j ≤ k := by
  cases hi : indexOpt old t with
  | none =>
    exfalso
    exact (indexOpt_none_iff old t).mp hi (h.isInfix.trans (List.drop_suffix k t).isInfix)
  | some j =>
    refine ⟨j, rfl, ?_⟩
    by_contra hlt
    exact indexOpt_first old t j hi k (by omega) h

/-- If `new` occurs neither in `p` nor across the end of `p` into a following `new`, then
in `p` followed by `new` the first occurrence of `new` is the one that follows. -/
theorem indexOpt_after_fresh (new : GoString) (hnew : new ≠ []) (p r : GoString)
    (hfresh : ¬ new <:+: p ++ new.dropLast) :
    indexOpt new (p ++ new ++ r) = some p.length := by
  have hocc : new <+: (p ++ new ++ r).drop p.length := by
    rw [List.append_assoc, List.drop_left]
    exact List.prefix_append _ _
  obtain ⟨j, hj, hle⟩ := indexOpt_le_of_occurrence new _ p.length hocc
  rcases Nat.lt_or_ge j p.length with hlt | hge
  · exfalso
    apply hfresh
    have h1 := indexOpt_take new _ j hj
    have h2 : new <:+: (p ++ new ++ r).take (j + new.length) := by
      by_contra hcon
      rw [(indexOpt_none_iff new _).mpr hcon] at h1
      exact absurd h1 (by simp)
    have hpos : 0 < new.length := List.length_pos.mpr hnew
    have h3 : (p ++ new ++ r).take (j + new.length) <+: p ++ new.dropLast := by
      apply List.prefix_of_prefix_length_le (List.take_prefix _ _)
      · rw [List.append_assoc]
        refine (List.prefix_append_right_inj p).mpr ?_
        exact (List.dropLast_prefix new).trans (List.prefix_append _ _)
      · simp only [List.length_take, List.length_append, List.length_dropLast]
        omega
    exact h2.trans h3.isInfix
  · rw [hj]
    congr 1
    omega

theorem freshIn_cons (pub p q : GoString) (rest : List GoString)
    (h : freshIn pub (p :: q :: rest) = true) :
    ¬ pub <:+: p ++ pub.dropLast ∧ freshIn pub (q :: rest) = true := by
  simpa [freshIn] using h

/-- Splitting what was joined: if the separator occurs neither in a piece nor across
the end of a piece into the separator after it, the pieces between the occurrences
of the separator are the pieces joined. -/
theorem pieces_joinWith_fresh (new : GoString) (hnew : new ≠ []) :
    ∀ ps : List GoString, ps ≠ [] → freshIn new ps = true →
      piecesAux new (joinWith new ps) 0 [] = ps := by
  intro ps
  induction ps with
  | nil => intro h; exact absurd rfl h
  | cons p rest ih =>
    intro _ h
    cases rest with
    | nil =>
      have hp : ¬ new <:+: p := by simpa [freshIn] using h
      rw [piecesAux_step new hnew]
      simp only [joinWith, (indexOpt_none_iff new p).mpr hp]
      simp
    | cons q rest' =>
      obtain ⟨hp, hrest⟩ := freshIn_cons new p q rest' h
      rw [joinWith_cons _ _ _ (by simp), piecesAux_step new hnew,
        indexOpt_after_fresh new hnew p _ hp]
      simp only [List.nil_append, List.append_assoc, List.take_left']
      have hd : List.drop (p.length + new.length) (p ++ (new ++ joinWith new (q :: rest')))
          = joinWith new (q :: rest') := by
        rw [← List.append_assoc, ← List.length_append, List.drop_left]
      rw [hd, ih (by simp) hrest]

/-- Between two texts free of `priv`, an address that does not overlap `priv` brings no
occurrence of `priv`. -/
theorem not_infix_mid (priv m a b : GoString) (hno : NoOverlap priv m)
    (ha : ¬ priv <:+: a) (hb : ¬ priv <:+: b) : ¬ priv <:+: a ++ m ++ b := by
  obtain ⟨h1, h2, h3⟩ := hno
  rintro ⟨u, v, huv⟩
  have e : u ++ (priv ++ v) = a ++ (m ++ b) := by simpa using huv
  rcases List.append_eq_append_iff.mp e with ⟨w, hw1, hw2⟩ | ⟨w, hw1, hw2⟩
  · -- the occurrence starts in `a`: a = u ++ w, priv ++ v = w ++ (m ++ b)
    rcases List.append_eq_append_iff.mp hw2 with ⟨t, ht1, _⟩ | ⟨t, ht1, ht2⟩
    · -- w = priv ++ t
      exact ha ⟨u, t, by rw [hw1, ht1]; simp⟩
    · -- priv = w ++ t, m ++ b = t ++ v
      by_cases ht : t = []
      · subst ht
        exact ha ⟨u, [], by rw [hw1, ht1]; simp⟩
      by_cases hw : w = []
      · subst hw
        simp only [List.nil_append] at ht1
        subst ht1
        rcases List.append_eq_append_iff.mp ht2 with ⟨s, hs1, hs2⟩ | ⟨s, hs1, _⟩
        · -- priv = m ++ s, b = s ++ v
          by_cases hm : m = []
          · subst hm
            exact hb ⟨[], v, by rw [hs2]; simpa using hs1.symm ▸ rfl⟩
          by_cases hs : s = []
          · subst hs
            exact h1 ⟨[], [], by simpa using hs1⟩
          have hmem : m ∈ priv.inits := by
            rw [List.mem_inits]
            exact ⟨s, hs1.symm⟩
          have hne : m ≠ priv := by
            intro heq
            have := congrArg List.length hs1
            rw [← heq] at this
            simp only [List.length_append] at this
            have : s.length = 0 := by omega
            exact hs (List.length_eq_zero.mp this)
          exact (h3 m hmem hm hne).1 (List.suffix_refl m)
        · -- m = priv ++ s
          exact h1 ⟨[], s, by rw [hs1]; simp⟩
      · -- both parts non-empty: `t` is a proper end of `priv`
        have hmem : t ∈ priv.tails := by
          rw [List.mem_tails]
          exact ⟨w, ht1.symm⟩
        have hne : t ≠ priv := by
          intro heq
          have := congrArg List.length ht1
          rw [← heq] at this
          simp only [List.length_append] at this
          have : w.length = 0 := by omega
          exact hw (List.length_eq_zero.mp this)
        rcases List.append_eq_append_iff.mp ht2 with ⟨s, hs1, _⟩ | ⟨s, hs1, _⟩
        · exact (h2 t hmem ht hne).2 ⟨s, hs1.symm⟩
        · exact (h2 t hmem ht hne).1 ⟨s, hs1.symm⟩
  · -- the occurrence starts at or after the end of `a`: u = a ++ w, m ++ b = w ++ (priv ++ v)
    rcases List.append_eq_append_iff.mp hw2 with ⟨s, hs1, hs2⟩ | ⟨s, hs1, hs2⟩
    · -- w = m ++ s, b = s ++ (priv ++ v)
      exact hb ⟨s, v, by rw [hs2]; simp⟩
    · -- m = w ++ s, priv ++ v = s ++ b
      rcases List.append_eq_append_iff.mp hs2 with ⟨t, ht1, _⟩ | ⟨t, ht1, ht2⟩
      · -- s = priv ++ t
        exact h1 ⟨w, t, by rw [hs1, ht1]; simp⟩
      · -- priv = s ++ t, b = t ++ v
        by_cases hs : s = []
        · subst hs
          simp only [List.nil_append] at ht1
          exact hb ⟨[], v, by rw [ht2, ht1]; simp⟩
        by_cases ht : t = []
        · subst ht
          simp only [List.append_nil] at ht1
          exact h1 ⟨w, [], by rw [hs1, ht1]; simp⟩
        have hmem : s ∈ priv.inits := by
          rw [List.mem_inits]
          exact ⟨t, ht1.symm⟩
        have hne : s ≠ priv := by
          intro heq
          have := congrArg List.length ht1
          rw [← heq] at this
          simp only [List.length_append] at this
          have : t.length = 0 := by omega
          exact ht (List.length_eq_zero.mp this)
        exact (h3 s hmem hs hne).1 ⟨w, hs1.symm⟩

/-- Joining `priv`-free pieces by an address that does not overlap `priv` creates no
occurrence of `priv`. -/
theorem joinWith_noOverlap (priv pub : GoString) (hpriv : priv ≠ [])
    (hno : NoOverlap priv pub) :
    ∀ ps : List GoString, (∀ p ∈ ps, ¬ priv <:+: p) → ¬ priv <:+: joinWith pub ps := by
  intro ps
  induction ps with
  | nil =>
    intro _
    simpa [joinWith] using hpriv
  | cons p rest ih =>
    intro h
    cases rest with
    | nil => simpa [joinWith] using h p (by simp)
    | cons q rest' =>
      rw [joinWith_cons _ _ _ (by simp)]
      exact not_infix_mid priv pub p _ hno (h p (by simp))
        (ih (fun p' hp' => h p' (by simp [hp'])))

/-! ## Lemmas: the command -/

theorem str_kube : str "/.kube" = [47, 46, 107, 117, 98, 101] := by decide
theorem str_config : str "/config" = [47, 99, 111, 110, 102, 105, 103] := by decide

theorem kubeconfigPath_ne_kubeDir (home : GoString) : kubeconfigPath home ≠ kubeDir home := by
  intro h
  have := congrArg List.length h
  simp [kubeconfigPath, kubeDir, str_config] at this

theorem dirname_kubeconfigPath (home : GoString) :
    dirname (kubeconfigPath home) = kubeDir home := by
  simp [dirname, kubeconfigPath, kubeDir, str_config, List.dropWhile]

/-- Once lines 33 to 47 have gone through, `Run` is its print or install branch on the
rewritten document. -/
theorem Run_of_Fetched (app : AppConfig) (flags : Flags) (args : List GoString) (w : World)
    (node : Node) (out content : GoString) (hf : Fetched app args node out)
    (hc : Replace out node.PrivateIPAddress node.IPAddress (-1) = some content) :
    Run app flags args w =
      if flags.print then printBranch app content w (fetchEvents node)
      else installBranch flags.force content w (fetchEvents node) := by
  obtain ⟨name, rest, cluster, rfl, h1, h2, h3, h4⟩ := hf
  have h4' : app.RunCmd node (str "cat /etc/kubernetes/admin.conf") = (out, none) := h4
  simp only [Run, h1, h2, h3, h4', hc, FatalOnError, fetchEvents, adminConf, List.singleton_append]

/-- The call `MkdirAll` either succeeds, adding at most the directory itself, or leaves the
world as it was. -/
theorem MkdirAll_world (w : World) (p : GoString) :
    (MkdirAll w p).2 = w ∨
      (find w.fs p = none ∧ (MkdirAll w p).1 = none ∧
        (MkdirAll w p).2 = { w with fs := (p, Entry.dir) :: w.fs }) := by
  unfold MkdirAll
  by_cases hd : p ∈ w.denied
  · left; simp [hd]
  · simp only [hd, if_false]
    cases hf : find w.fs p with
    | some e => cases e <;> (left; rfl)
    | none =>
      simp only
      by_cases hro : dirname p ∈ w.readOnly
      · left
        cases find w.fs (dirname p) with
        | none => simp [hro]
        | some e => cases e <;> simp [hro]
      · cases find w.fs (dirname p) with
        | none => right; simp [hro]
        | some e =>
          cases e with
          | file _ => left; rfl
          | dir => right; simp [hro]

theorem find_MkdirAll (w : World) (p q : GoString) (h : q ≠ p) :
    find (MkdirAll w p).2.fs q = find w.fs q := by
  rcases MkdirAll_world w p with h1 | ⟨_, _, h1⟩
  · rw [h1]
  · rw [h1]
    have : ¬ p = q := fun e => h e.symm
    simp [find, this]

theorem Stat_MkdirAll (w : World) (p q : GoString) (h : q ≠ p) :
    Stat (MkdirAll w p).2 q = Stat w q := by
  rcases MkdirAll_world w p with h1 | ⟨hp, _, h1⟩
  · rw [h1]
  · rw [h1]
    have hne : ¬ p = q := fun e => h e.symm
    unfold Stat
    by_cases hd : q ∈ w.denied
    · simp [hd]
    · simp only [hd, if_false, find, hne]
      cases find w.fs q with
      | some e => rfl
      | none =>
        simp only
        by_cases hpar : p = dirname q
        · simp only [hpar, if_true]
          rw [← hpar, hp]
        · simp only [hpar, if_false]

theorem stdin_MkdirAll (w : World) (p : GoString) : (MkdirAll w p).2.stdin = w.stdin := by
  rcases MkdirAll_world w p with h1 | ⟨_, _, h1⟩
  · rw [h1]
  · rw [h1]

/-- A stat that reports `ENOENT` has found no entry at the path. -/
theorem Stat_ENOENT (w : World) (p : GoString) (h : Stat w p = some Errno.ENOENT) :
    find w.fs p = none := by
  unfold Stat at h
  by_cases hd : p ∈ w.denied
  · simp [hd] at h
  · simp only [hd, if_false] at h
    cases hf : find w.fs p with
    | none => rfl
    | some e => simp [hf] at h

/-- Either lines 33 to 47 go through, or `Run` ends there: the world is as it was,
and nothing local or printed has happened. -/
theorem Run_cases (app : AppConfig) (flags : Flags) (args : List GoString) (w : World) :
    (∃ node out, Fetched app args node out) ∨
    ((Run app flags args w).world = w ∧
      (Run app flags args w).outcome ≠ Outcome.returned ∧
      ∀ e ∈ (Run app flags args w).events, e.isLocal = false ∧ e.isOutput = false) := by
  cases args with
  | nil => right; simp [Run]
  | cons name rest =>
    cases h1 : (app.FindClusterByName name).2 with
    | none => right; simp [Run, h1]
    | some cluster =>
      cases h2e : (app.GetMasterNode cluster).2 with
      | some e => right; simp [Run, h1, h2e, FatalOnError]
      | none =>
        cases h2n : (app.GetMasterNode cluster).1 with
        | none => right; simp [Run, h1, h2e, h2n, FatalOnError]
        | some node =>
          cases h3 : app.CapturePassphrase node.SSHKeyName with
          | some e =>
            right
            simp [Run, h1, h2e, h2n, h3, FatalOnError, Event.isLocal, Event.isOutput]
          | none =>
            obtain ⟨content, hc⟩ := Replace_total
              (app.RunCmd node (str "cat /etc/kubernetes/admin.conf")).1
              node.PrivateIPAddress node.IPAddress
            cases h4 : (app.RunCmd node (str "cat /etc/kubernetes/admin.conf")).2 with
            | some e =>
              right
              simp [Run, h1, h2e, h2n, h3, h4, hc, FatalOnError, Event.isLocal, Event.isOutput]
            | none =>
              left
              refine ⟨node, (app.RunCmd node adminConf).1, name, rest, cluster, rfl, h1, ?_, h3, ?_⟩
              · exact Prod.ext h2n h2e
              · exact Prod.ext rfl h4

theorem ensureDir_world (p : GoString) (w : World) (ev : List Event) :
    (ensureDir p w ev).1 = w ∨
      (Stat w p = some Errno.ENOENT ∧ (ensureDir p w ev).1 = (MkdirAll w p).2) := by
  unfold ensureDir
  by_cases h : IsNotExist (Stat w p) = true
  · right
    simp only [h, if_true, and_true]
    simpa [IsNotExist] using h
  · left
    simp only [h]
    rfl

theorem ensureDir_Stat (p q : GoString) (w : World) (ev : List Event) (h : q ≠ p) :
    Stat (ensureDir p w ev).1 q = Stat w q := by
  rcases ensureDir_world p w ev with h1 | ⟨_, h1⟩
  · rw [h1]
  · rw [h1, Stat_MkdirAll w p q h]

theorem ensureDir_find (p q : GoString) (w : World) (ev : List Event) (h : q ≠ p) :
    find (ensureDir p w ev).1.fs q = find w.fs q := by
  rcases ensureDir_world p w ev with h1 | ⟨_, h1⟩
  · rw [h1]
  · rw [h1, find_MkdirAll w p q h]

theorem ensureDir_stdin (p : GoString) (w : World) (ev : List Event) :
    (ensureDir p w ev).1.stdin = w.stdin := by
  rcases ensureDir_world p w ev with h1 | ⟨_, h1⟩
  · rw [h1]
  · rw [h1, stdin_MkdirAll]

theorem ensureDir_events (p : GoString) (w : World) (ev : List Event) (e : Event) :
    e ∈ (ensureDir p w ev).2 ↔
      (e ∈ ev ∨ e = Event.Stat p (Stat w p) ∨
        (Stat w p = some Errno.ENOENT ∧ e = Event.MkdirAll p (MkdirAll w p).1)) := by
  unfold ensureDir
  by_cases h : IsNotExist (Stat w p) = true
  · have h' : Stat w p = some Errno.ENOENT := by simpa [IsNotExist] using h
    simp only [h, if_true, List.mem_append, List.mem_cons, List.mem_singleton,
      List.not_mem_nil, or_false]
    simp only [h', true_and]
  · have h' : ¬ Stat w p = some Errno.ENOENT := by simpa [IsNotExist] using h
    simp only [h, List.mem_append, List.mem_singleton, h', false_and, or_false]
    simp

/-- The overwrite question is put exactly when `force` is off and the stat succeeds. -/
theorem confirmAndWrite_read (force : Bool) (p c : GoString) (w : World) (ev : List Event)
    (hev : Event.ReadString ∉ ev) :
    Event.ReadString ∈ (confirmAndWrite force p c w ev).events ↔
      (force = false ∧ Stat w p = none) := by
  unfold confirmAndWrite
  by_cases hc : (!force && decide (Stat w p = none)) = true
  · have hc' : force = false ∧ Stat w p = none := by simpa using hc
    rw [if_pos hc]
    simp only [hc'.1, hc'.2, and_self, iff_true]
    cases FatalOnError (ReadString 10 w.stdin).2.1 with
    | some o => simp
    | none =>
      simp only
      split_ifs <;> simp [writeConfig]
  · have hc' : ¬ (force = false ∧ Stat w p = none) := by simpa using hc
    simp only [hc, hc', iff_false]
    simp [writeConfig, hev]

theorem confirmAndWrite_noprompt (force : Bool) (p c : GoString) (w : World) (ev : List Event)
    (h : force = true ∨ Stat w p ≠ none) :
    confirmAndWrite force p c w ev =
      writeConfig p c w (ev ++ [Event.Stat p (Stat w p)]) := by
  unfold confirmAndWrite
  have hc : ¬ (!force && decide (Stat w p = none)) = true := by
    rcases h with h | h
    · simp [h]
    · simp [h]
  simp only [hc]
  rfl

theorem confirmAndWrite_prompt (p c : GoString) (w : World) (ev : List Event)
    (h : Stat w p = none) :
    confirmAndWrite false p c w ev =
      match FatalOnError (ReadString 10 w.stdin).2.1 with
      | some o =>
        ⟨o, { w with stdin := (ReadString 10 w.stdin).2.2 },
          ev ++ [Event.Stat p none, Event.Println (str
            "There already exists a kubeconfig. Overwrite? (use -f to suppress this question) [yN]:"),
            Event.ReadString]⟩
      | none =>
        if ContainsAny (ReadString 10 w.stdin).1 (str "yY") = true then
          writeConfig p c { w with stdin := (ReadString 10 w.stdin).2.2 }
            (ev ++ [Event.Stat p none, Event.Println (str
              "There already exists a kubeconfig. Overwrite? (use -f to suppress this question) [yN]:"),
              Event.ReadString])
        else
          ⟨Outcome.fatal (str "aborted"), { w with stdin := (ReadString 10 w.stdin).2.2 },
            ev ++ [Event.Stat p none, Event.Println (str
              "There already exists a kubeconfig. Overwrite? (use -f to suppress this question) [yN]:"),
              Event.ReadString]⟩ := by
  unfold confirmAndWrite
  simp only [h, Bool.not_false, decide_True, Bool.and_self, if_true, List.append_assoc,
    List.singleton_append, List.cons_append, List.nil_append]
  cases FatalOnError (ReadString 10 w.stdin).2.1 with
  | some o => rfl
  | none =>
    simp only
    cases ContainsAny (ReadString 10 w.stdin).1 (str "yY") <;> simp

/-- The call `WriteFile` either fails and leaves the world as it was, or succeeds in a
directory and puts the file with the data first in the map. -/
theorem WriteFile_world (w : World) (p data : GoString) :
    ((WriteFile w p data).1 ≠ none ∧ (WriteFile w p data).2 = w) ∨
      ((WriteFile w p data).1 = none ∧ find w.fs (dirname p) = some Entry.dir ∧
        (WriteFile w p data).2 = { w with fs := (p, Entry.file data) :: w.fs }) := by
  unfold WriteFile
  by_cases hd : p ∈ w.denied
  · left; simp [hd]
  · simp only [hd, if_false]
    cases hdir : find w.fs (dirname p) with
    | none => left; simp
    | some e =>
      cases e with
      | file _ => left; simp
      | dir =>
        simp only
        cases hp : find w.fs p with
        | none =>
          by_cases hro : dirname p ∈ w.readOnly
          · left; simp [hro]
          · right; simp [hro]
        | some e' =>
          cases e' with
          | file _ => right; simp
          | dir => left; simp

/-- A write that succeeds leaves the file with exactly the data, in a directory. -/
theorem WriteFile_ok (w : World) (p data : GoString) (h : (WriteFile w p data).1 = none) :
    find (WriteFile w p data).2.fs p = some (Entry.file data) ∧
      find w.fs (dirname p) = some Entry.dir := by
  rcases WriteFile_world w p data with ⟨h1, _⟩ | ⟨_, h2, h3⟩
  · exact absurd h h1
  · rw [h3]
    exact ⟨by simp [find], h2⟩

theorem WriteFile_find_other (w : World) (p q data : GoString) (h : q ≠ p) :
    find (WriteFile w p data).2.fs q = find w.fs q := by
  have h' : ¬ p = q := fun e => h e.symm
  rcases WriteFile_world w p data with ⟨_, h1⟩ | ⟨_, _, h3⟩
  · rw [h1]
  · rw [h3]
    simp [find, h']

theorem WriteFile_fail (w : World) (p data : GoString) (h : (WriteFile w p data).1 ≠ none) :
    (WriteFile w p data).2 = w := by
  rcases WriteFile_world w p data with ⟨_, h1⟩ | ⟨h2, _, _⟩
  · exact h1
  · exact absurd h2 h

theorem writeConfig_ok (p c : GoString) (w : World) (ev : List Event)
    (hev : ∀ e ∈ ev, e.isWrite = false)
    (h : ∃ data, Event.WriteFile p data none ∈ (writeConfig p c w ev).events) :
    find (writeConfig p c w ev).world.fs p = some (Entry.file c) ∧
      find w.fs (dirname p) = some Entry.dir := by
  obtain ⟨data, hd⟩ := h
  simp only [writeConfig, List.mem_append, List.mem_cons, List.mem_singleton,
    List.not_mem_nil, or_false] at hd
  rcases hd with hd | hd | hd
  · have := hev _ hd
    simp [Event.isWrite] at this
  · simp only [Event.WriteFile.injEq] at hd
    exact WriteFile_ok w p c hd.2.2.symm
  · simp at hd

/-- If the write is recorded as succeeded, the file holds exactly the content and its
directory exists. -/
theorem confirmAndWrite_ok (force : Bool) (p c : GoString) (w : World) (ev : List Event)
    (hev : ∀ e ∈ ev, e.isWrite = false)
    (h : ∃ data, Event.WriteFile p data none ∈ (confirmAndWrite force p c w ev).events) :
    find (confirmAndWrite force p c w ev).world.fs p = some (Entry.file c) ∧
      find w.fs (dirname p) = some Entry.dir := by
  by_cases hc : force = true ∨ Stat w p ≠ none
  · rw [confirmAndWrite_noprompt force p c w ev hc] at h ⊢
    refine writeConfig_ok p c w _ ?_ h
    intro e he
    simp only [List.mem_append, List.mem_singleton] at he
    rcases he with he | he
    · exact hev e he
    · subst he; rfl
  · simp only [not_or, Bool.not_eq_true, ne_eq, not_not] at hc
    obtain ⟨hforce, hstat⟩ := hc
    subst hforce
    rw [confirmAndWrite_prompt p c w ev hstat] at h ⊢
    have hev' : ∀ e ∈ ev ++ [Event.Stat p none, Event.Println (str
        "There already exists a kubeconfig. Overwrite? (use -f to suppress this question) [yN]:"),
        Event.ReadString], e.isWrite = false := by
      intro e he
      simp only [List.mem_append, List.mem_cons, List.mem_singleton, List.not_mem_nil,
        or_false] at he
      rcases he with he | he | he | he
      · exact hev e he
      · subst he; rfl
      · subst he; rfl
      · subst he; rfl
    cases hfe : FatalOnError (ReadString 10 w.stdin).2.1 with
    | some o =>
      simp only [hfe] at h
      obtain ⟨data, hd⟩ := h
      have := hev' _ hd
      simp [Event.isWrite] at this
    | none =>
      simp only [hfe] at h ⊢
      by_cases hy : ContainsAny (ReadString 10 w.stdin).1 (str "yY") = true
      · simp only [hy, if_true] at h ⊢
        exact writeConfig_ok p c _ _ hev' h
      · simp only [hy] at h
        obtain ⟨data, hd⟩ := h
        have := hev' _ hd
        simp [Event.isWrite] at this

theorem writeConfig_find_other (p q c : GoString) (w : World) (ev : List Event) (h : q ≠ p) :
    find (writeConfig p c w ev).world.fs q = find w.fs q := by
  simp only [writeConfig]
  exact WriteFile_find_other w p q c h

theorem confirmAndWrite_find_other (force : Bool) (p q c : GoString) (w : World)
    (ev : List Event) (h : q ≠ p) :
    find (confirmAndWrite force p c w ev).world.fs q = find w.fs q := by
  by_cases hc : force = true ∨ Stat w p ≠ none
  · rw [confirmAndWrite_noprompt force p c w ev hc]
    exact writeConfig_find_other p q c w _ h
  · simp only [not_or, Bool.not_eq_true, ne_eq, not_not] at hc
    obtain ⟨hforce, hstat⟩ := hc
    subst hforce
    rw [confirmAndWrite_prompt p c w ev hstat]
    cases FatalOnError (ReadString 10 w.stdin).2.1 with
    | some o => rfl
    | none =>
      simp only
      split_ifs
      · exact writeConfig_find_other p q c _ _ h
      · rfl

theorem fetchEvents_not_local (node : Node) :
    ∀ e ∈ fetchEvents node, e.isLocal = false ∧ e.isOutput = false ∧ e.isWrite = false := by
  intro e he
  simp only [fetchEvents, List.mem_cons, List.mem_singleton, List.not_mem_nil, or_false] at he
  rcases he with he | he <;> subst he <;> exact ⟨rfl, rfl, rfl⟩

/-- The events before lines 76 to 88 are kept. -/
theorem confirmAndWrite_events_mono (force : Bool) (p c : GoString) (w : World)
    (ev : List Event) (e : Event) (he : e ∈ ev) :
    e ∈ (confirmAndWrite force p c w ev).events := by
  by_cases hc : force = true ∨ Stat w p ≠ none
  · rw [confirmAndWrite_noprompt force p c w ev hc]
    simp [writeConfig, he]
  · simp only [not_or, Bool.not_eq_true, ne_eq, not_not] at hc
    obtain ⟨hforce, hstat⟩ := hc
    subst hforce
    rw [confirmAndWrite_prompt p c w ev hstat]
    cases FatalOnError (ReadString 10 w.stdin).2.1 with
    | some o => simp [he]
    | none =>
      simp only
      split_ifs
      · simp [writeConfig, he]
      · simp [he]

theorem installBranch_home (force : Bool) (c : GoString) (w : World) (ev : List Event)
    (home : GoString) (hhome : w.homeDir = some home) :
    installBranch force c w ev =
      confirmAndWrite force (kubeconfigPath home) c
        (ensureDir (kubeDir home) w (ev ++ [Event.Println (str "create file")])).1
        (ensureDir (kubeDir home) w (ev ++ [Event.Println (str "create file")])).2 := by
  simp only [installBranch, hhome, kubeDir, kubeconfigPath]

theorem demo_Fetched (out : GoString) : Fetched (demoApp out none) [str "demo"] demoNode out :=
  ⟨str "demo", [], ⟨str "demo"⟩, rfl, rfl, rfl, rfl, rfl⟩

theorem demo_rewrite :
    Replace demoDoc demoNode.PrivateIPAddress demoNode.IPAddress (-1)
      = some (str "server: https://203.0.113.9:6443\n") := by
  rw [Replace_eq_join _ _ _ (by decide)]
  decide

theorem empty_rewrite :
    Replace [] demoNode.PrivateIPAddress demoNode.IPAddress (-1) = some [] := by
  rw [Replace_eq_join _ _ _ (by decide)]
  decide

theorem WriteFile_stdin (w : World) (p data : GoString) :
    (WriteFile w p data).2.stdin = w.stdin := by
  rcases WriteFile_world w p data with ⟨_, h1⟩ | ⟨_, _, h3⟩
  · rw [h1]
  · rw [h3]

theorem confirmAndWrite_Stat_event (force : Bool) (p c : GoString) (w : World)
    (ev : List Event) (q : GoString) (x : Option Errno) :
    Event.Stat q x ∈ (confirmAndWrite force p c w ev).events ↔
      (Event.Stat q x ∈ ev ∨ (q = p ∧ x = Stat w p)) := by
  by_cases hc : force = true ∨ Stat w p ≠ none
  · rw [confirmAndWrite_noprompt force p c w ev hc]
    simp [writeConfig]
  · simp only [not_or, Bool.not_eq_true, ne_eq, not_not] at hc
    obtain ⟨hforce, hstat⟩ := hc
    subst hforce
    rw [confirmAndWrite_prompt p c w ev hstat]
    cases FatalOnError (ReadString 10 w.stdin).2.1 with
    | some o => simp [hstat]
    | none =>
      simp only
      split_ifs
      · simp [writeConfig, hstat]
      · simp [hstat]

/-- A line on standard input followed by a newline is what `ReadString` returns, with
a nil error, and what comes after the newline is left unread. -/
theorem ReadString_line (rest : GoString) :
    ∀ line : GoString, 10 ∉ line →
      ReadString 10 (line ++ 10 :: rest) = (line ++ [10], none, rest) := by
  intro line hline
  have hmem : 10 ∈ line ++ 10 :: rest := by simp
  have ht : ∀ l : GoString, 10 ∉ l →
      (l ++ 10 :: rest).takeWhile (fun b => b ≠ 10) = l ∧
      (l ++ 10 :: rest).dropWhile (fun b => b ≠ 10) = 10 :: rest := by
    intro l
    induction l with
    | nil => intro _; simp [List.takeWhile, List.dropWhile]
    | cons x l ih =>
      intro hl
      simp only [List.mem_cons, not_or] at hl
      have hx : x ≠ 10 := fun e => hl.1 e.symm
      have hd : decide (x ≠ 10) = true := decide_eq_true hx
      obtain ⟨h1, h2⟩ := ih hl.2
      constructor
      · show List.takeWhile (fun b => decide (b ≠ 10)) (x :: (l ++ 10 :: rest)) = x :: l
        rw [List.takeWhile_cons, hd, h1]
        rfl
      · show List.dropWhile (fun b => decide (b ≠ 10)) (x :: (l ++ 10 :: rest)) = 10 :: rest
        rw [List.dropWhile_cons, hd, h2]
        rfl
  unfold ReadString
  rw [if_pos hmem, (ht line hline).1, (ht line hline).2]
  rfl

/-- An answer line holds `y` or `Y` exactly when `ContainsAny` says so. -/
theorem ContainsAny_line (line : GoString) :
    ContainsAny (line ++ [10]) (str "yY") = true ↔ (121 ∈ line ∨ 89 ∈ line) := by
  have hs : str "yY" = [121, 89] := by decide
  unfold ContainsAny
  rw [hs]
  simp only [List.any_eq_true, List.mem_append, List.mem_singleton]
  constructor
  · rintro ⟨b, hb | hb, hc⟩
    · have : b = 121 ∨ b = 89 := by simpa using hc
      rcases this with rfl | rfl
      · exact Or.inl hb
      · exact Or.inr hb
    · subst hb
      simp at hc
  · rintro (h | h)
    · exact ⟨121, Or.inl h, by simp⟩
    · exact ⟨89, Or.inl h, by simp⟩

/-! ## The claims -/

/-- C1 as stated fails. With private `10.0.0.1` and public `110.0.0.1` the document
`https://10.0.0.1:6443` has one occurrence of the private address, and the rewritten
document `https://110.0.0.1:6443` still has one, not zero. With private `10.0.0.5`
and public `203.0.113.9` the document `203.0.113.9 10.0.0.5` has one occurrence of the
private address, and the rewritten document has two of the public one, not one. -/
theorem rewrite_counts_counterexample :
    (Count (str "https://10.0.0.1:6443") (str "10.0.0.1") = 1 ∧
      Replace (str "https://10.0.0.1:6443") (str "10.0.0.1") (str "110.0.0.1") (-1)
        = some (str "https://110.0.0.1:6443") ∧
      Count (str "https://110.0.0.1:6443") (str "10.0.0.1") = 1) ∧
    (Count (str "203.0.113.9 10.0.0.5") (str "10.0.0.5") = 1 ∧
      Replace (str "203.0.113.9 10.0.0.5") (str "10.0.0.5") (str "203.0.113.9") (-1)
        = some (str "203.0.113.9 203.0.113.9") ∧
      Count (str "203.0.113.9 203.0.113.9") (str "203.0.113.9") = 2) := by
  have c1 := Count_pieces (str "https://10.0.0.1:6443") (str "10.0.0.1") (by decide)
  have l1 : (piecesBetween (str "https://10.0.0.1:6443") (str "10.0.0.1")).length = 2 := by
    decide
  have c2 := Count_pieces (str "https://110.0.0.1:6443") (str "10.0.0.1") (by decide)
  have l2 : (piecesBetween (str "https://110.0.0.1:6443") (str "10.0.0.1")).length = 2 := by
    decide
  have c3 := Count_pieces (str "203.0.113.9 10.0.0.5") (str "10.0.0.5") (by decide)
  have l3 : (piecesBetween (str "203.0.113.9 10.0.0.5") (str "10.0.0.5")).length = 2 := by
    decide
  have c4 := Count_pieces (str "203.0.113.9 203.0.113.9") (str "203.0.113.9") (by decide)
  have l4 : (piecesBetween (str "203.0.113.9 203.0.113.9") (str "203.0.113.9")).length = 3 := by
    decide
  refine ⟨⟨by omega, ?_, by omega⟩, ⟨by omega, ?_, by omega⟩⟩
  · rw [Replace_eq_join _ _ _ (by decide)]
    decide
  · rw [Replace_eq_join _ _ _ (by decide)]
    decide

/-- C1, amended. For a non-empty private address with `N` occurrences in the document
(as `strings.Count` counts them) the rewrite replaces exactly these: the document
splits into `N + 1` pieces, none containing the private address, of which the result
is the join by the public address, so the result is `N` copies of the public address
longer and `N` copies of the private address shorter than the document. The result
contains zero occurrences of the private address if the two addresses do not overlap
(`NoOverlap`), and exactly `N` occurrences of the public address if that address is
non-empty and occurs neither in a piece of the document nor across the end of a
piece into the copy written after it (`freshIn`). -/
theorem rewrite_counts (doc priv pub : GoString) (N : Nat) (hpriv : priv ≠ [])
    (hN : Count doc priv = N) :
    ∃ r, Replace doc priv pub (-1) = some r ∧
      r = joinWith pub (piecesBetween doc priv) ∧
      (piecesBetween doc priv).length = N + 1 ∧
      (∀ p ∈ piecesBetween doc priv, Count p priv = 0 ∧ ¬ priv <:+: p) ∧
      r.length + N * priv.length = doc.length + N * pub.length ∧
      (NoOverlap priv pub → Count r priv = 0 ∧ ¬ priv <:+: r) ∧
      (pub ≠ [] → freshIn pub (piecesBetween doc priv) = true → Count r pub = N) := by
  have hfree : ∀ p ∈ piecesBetween doc priv, ¬ priv <:+: p := fun p hp =>
    (indexOpt_none_iff priv p).mp (pieces_free priv hpriv doc.length doc (le_refl _) p hp)
  have hlen : (piecesBetween doc priv).length = N + 1 := by
    rw [← hN]
    exact (Count_pieces doc priv hpriv).symm
  refine ⟨_, Replace_eq_join doc priv pub hpriv, rfl, hlen, ?_, ?_, ?_, ?_⟩
  · intro p hp
    have h := pieces_free priv hpriv doc.length doc (le_refl _) p hp
    exact ⟨(Count_eq_zero_iff p priv hpriv).mpr h, hfree p hp⟩
  · have hne : piecesBetween doc priv ≠ [] := piecesAux_ne_nil priv doc 0 []
    have h1 := joinWith_length pub _ hne
    have h2 := joinWith_length priv _ hne
    have hself := joinWith_pieces_self priv hpriv doc.length doc (le_refl _) []
    have hc := Count_pieces doc priv hpriv
    simp only [List.nil_append] at hself
    unfold piecesBetween at h1 h2 hc ⊢
    rw [hself] at h2
    rw [← hc, hN] at h1 h2
    rw [Nat.add_mul, Nat.one_mul] at h1 h2
    omega
  · intro hno
    have h := joinWith_noOverlap priv pub hpriv hno _ hfree
    exact ⟨(Count_eq_zero_iff _ priv hpriv).mpr ((indexOpt_none_iff priv _).mpr h), h⟩
  · intro hpub hfresh
    have h1 := pieces_joinWith_fresh pub hpub (piecesBetween doc priv)
      (piecesAux_ne_nil priv doc 0 []) hfresh
    have h2 := Count_pieces (joinWith pub (piecesBetween doc priv)) pub hpub
    unfold piecesBetween at h1 h2 hlen ⊢
    rw [h1] at h2
    omega

/-- C1 amended, at the scenario of the specification: private `10.0.0.5`, public
`203.0.113.9`, one occurrence in `server: https://10.0.0.5:6443`. The two addresses do
not overlap and the public address is fresh in the pieces, so the rewritten document
has no occurrence of the private address and one of the public address. -/
theorem rewrite_counts_witness :
    ∃ r, Replace demoDoc demoNode.PrivateIPAddress demoNode.IPAddress (-1) = some r ∧
      r = str "server: https://203.0.113.9:6443\n" ∧
      Count r demoNode.PrivateIPAddress = 0 ∧ Count r demoNode.IPAddress = 1 := by
  obtain ⟨r, h1, h2, _, _, _, h6, h7⟩ :=
    rewrite_counts demoDoc demoNode.PrivateIPAddress demoNode.IPAddress 1 (by decide)
      (by
        have c := Count_pieces demoDoc demoNode.PrivateIPAddress (by decide)
        have l : (piecesBetween demoDoc demoNode.PrivateIPAddress).length = 2 := by decide
        omega)
  exact ⟨r, h1, by rw [h2]; decide, (h6 (by unfold NoOverlap; decide)).1,
    h7 (by decide) (by decide)⟩

/-- The two inputs at which C1 fails are the ones the conditions of the amended
statement exclude: `10.0.0.1` and `110.0.0.1` overlap, and `203.0.113.9` is not fresh in
the pieces of `203.0.113.9 10.0.0.5`. -/
theorem rewrite_counts_conditions :
    ¬ NoOverlap (str "10.0.0.1") (str "110.0.0.1") ∧
      freshIn (str "203.0.113.9")
        (piecesBetween (str "203.0.113.9 10.0.0.5") (str "10.0.0.5")) = false := by
  refine ⟨by unfold NoOverlap; decide, by decide⟩

/-- C2 as stated fails. With private `10.0.0.1` and public `110.0.0.1` the document
`https://10.0.0.1:6443` is rewritten to `https://110.0.0.1:6443`, and rewriting that
again gives `https://1110.0.0.1:6443`: the second rewrite is not a no-op. -/
theorem rewrite_idempotent_counterexample :
    Replace (str "https://10.0.0.1:6443") (str "10.0.0.1") (str "110.0.0.1") (-1)
        = some (str "https://110.0.0.1:6443") ∧
      Replace (str "https://110.0.0.1:6443") (str "10.0.0.1") (str "110.0.0.1") (-1)
        = some (str "https://1110.0.0.1:6443") ∧
      str "https://1110.0.0.1:6443" ≠ str "https://110.0.0.1:6443" := by
  refine ⟨?_, ?_, by decide⟩
  · rw [Replace_eq_join _ _ _ (by decide)]
    decide
  · rw [Replace_eq_join _ _ _ (by decide)]
    decide

/-- C2, amended. The rewrite always yields a document `r`, and rewriting `r` again is
a no-op exactly when the two addresses are equal or `r` contains no occurrence of the
private address; this is the case in particular when both addresses are non-empty and
no byte of the public address occurs in the original document. -/
theorem rewrite_idempotent_iff (doc priv pub : GoString) :
    ∃ r, Replace doc priv pub (-1) = some r ∧
      (Replace r priv pub (-1) = some r ↔ (priv = pub ∨ Count r priv = 0)) ∧
      (priv ≠ [] → pub ≠ [] → (∀ b ∈ pub, b ∉ doc) → Replace r priv pub (-1) = some r) := by
  obtain ⟨r, hr⟩ := Replace_total doc priv pub
  refine ⟨r, hr, Replace_fixed_iff r priv pub, ?_⟩
  intro hpriv hpub hfresh
  rw [Replace_fixed_iff]
  right
  rw [Replace_eq_join doc priv pub hpriv] at hr
  simp only [Option.some.injEq] at hr
  rw [← hr]
  exact (join_counts doc priv pub hpriv hpub hfresh).1

/-- C3. Nothing else altered: for a non-empty private address the rewrite does not
panic and returns the pieces of the document lying between the successive leftmost
non-overlapping occurrences of the private address, in order and unchanged, joined
by the public address. The pieces are those of the document (joined by the private
address they give the document back), none contains the private address, and each
but the last is followed by the leftmost occurrence after it. A document in which the
private address does not occur is returned unchanged, and in the scenario of the
specification `server: https://10.0.0.5:6443` becomes `server: https://203.0.113.9:6443`. -/
theorem rewrite_alters_nothing_else (doc priv pub : GoString) (hpriv : priv ≠ []) :
    Replace doc priv pub (-1) = some (joinWith pub (piecesBetween doc priv)) ∧
      joinWith priv (piecesBetween doc priv) = doc ∧
      (∀ p ∈ piecesBetween doc priv, ¬ priv <:+: p) ∧
      (∀ p ∈ (piecesBetween doc priv).dropLast, Index (p ++ priv) priv = (p.length : Int)) ∧
      (¬ priv <:+: doc → Replace doc priv pub (-1) = some doc) ∧
      Replace (str "server: https://10.0.0.5:6443\n") (str "10.0.0.5") (str "203.0.113.9") (-1)
        = some (str "server: https://203.0.113.9:6443\n") := by
  have hjoin := Replace_eq_join doc priv pub hpriv
  have hself := joinWith_pieces_self priv hpriv doc.length doc (le_refl _) []
  simp only [List.nil_append] at hself
  refine ⟨hjoin, hself, ?_, pieces_leftmost priv hpriv doc.length doc (le_refl _), ?_, ?_⟩
  · intro p hp
    exact (indexOpt_none_iff priv p).mp (pieces_free priv hpriv doc.length doc (le_refl _) p hp)
  · intro hno
    rw [hjoin]
    have hi := (indexOpt_none_iff priv doc).mpr hno
    unfold piecesBetween
    rw [piecesAux_step priv hpriv, hi]
    simp [joinWith]
  · rw [Replace_eq_join _ _ _ (by decide)]
    decide

/-- C3, at a document with two occurrences, the first of them overlapping a third. -/
theorem rewrite_alters_nothing_else_witness :
    Replace (str "aaa-aa") (str "aa") (str "b") (-1)
        = some (joinWith (str "b") (piecesBetween (str "aaa-aa") (str "aa"))) ∧
      joinWith (str "aa") (piecesBetween (str "aaa-aa") (str "aa")) = str "aaa-aa" ∧
      (∀ p ∈ piecesBetween (str "aaa-aa") (str "aa"), ¬ str "aa" <:+: p) ∧
      (∀ p ∈ (piecesBetween (str "aaa-aa") (str "aa")).dropLast,
        Index (p ++ str "aa") (str "aa") = (p.length : Int)) ∧
      (¬ str "aa" <:+: str "aaa-aa" →
        Replace (str "aaa-aa") (str "aa") (str "b") (-1) = some (str "aaa-aa")) ∧
      Replace (str "server: https://10.0.0.5:6443\n") (str "10.0.0.5") (str "203.0.113.9") (-1)
        = some (str "server: https://203.0.113.9:6443\n") :=
  rewrite_alters_nothing_else (str "aaa-aa") (str "aa") (str "b") (by decide)

/-- The pieces of `aaa-aa` between the occurrences of `aa`, and their join by `b`. -/
theorem pieces_example :
    piecesBetween (str "aaa-aa") (str "aa") = [[], str "a-", []] ∧
      joinWith (str "b") (piecesBetween (str "aaa-aa") (str "aa")) = str "ba-b" := by
  decide

/-- C4. Declined overwrite leaves the file untouched: in the install branch with the
force flag off and a target file whose stat succeeds, an answer read from standard
input that contains neither `y` nor `Y` ends the command in a fatal outcome, which is
"aborted" whenever a whole line was read (the read returned a nil error); the answer
has been read, no write of any file is performed, and the target path holds the
entry it held before. -/
theorem declined_overwrite_keeps_file (app : AppConfig) (flags : Flags)
    (args : List GoString) (w : World) (node : Node) (out home : GoString)
    (hf : Fetched app args node out) (hprint : flags.print = false)
    (hforce : flags.force = false) (hhome : w.homeDir = some home)
    (hstat : Stat w (kubeconfigPath home) = none)
    (hno : ContainsAny (ReadString 10 w.stdin).1 (str "yY") = false) :
    (∃ msg, (Run app flags args w).outcome = Outcome.fatal msg) ∧
      ((ReadString 10 w.stdin).2.1 = none →
        (Run app flags args w).outcome = Outcome.fatal (str "aborted")) ∧
      Event.ReadString ∈ (Run app flags args w).events ∧
      (∀ e ∈ (Run app flags args w).events, e.isWrite = false) ∧
      find (Run app flags args w).world.fs (kubeconfigPath home)
        = find w.fs (kubeconfigPath home) := by
  obtain ⟨content, hc⟩ := Replace_total out node.PrivateIPAddress node.IPAddress
  rw [Run_of_Fetched app flags args w node out content hf hc]
  simp only [hprint, Bool.false_eq_true, if_false, hforce]
  rw [installBranch_home false content w _ home hhome]
  have hne := kubeconfigPath_ne_kubeDir home
  have hs1 : Stat (ensureDir (kubeDir home) w
      (fetchEvents node ++ [Event.Println (str "create file")])).1 (kubeconfigPath home)
      = none := by
    rw [ensureDir_Stat _ _ _ _ hne, hstat]
  rw [confirmAndWrite_prompt _ _ _ _ hs1]
  have hevs : ∀ e ∈ (ensureDir (kubeDir home) w
      (fetchEvents node ++ [Event.Println (str "create file")])).2 ++
        [Event.Stat (kubeconfigPath home) none, Event.Println (str
          "There already exists a kubeconfig. Overwrite? (use -f to suppress this question) [yN]:"),
          Event.ReadString], e.isWrite = false := by
    intro e he
    simp only [List.mem_append, ensureDir_events, List.mem_cons, List.mem_singleton,
      List.not_mem_nil, or_false] at he
    rcases he with ((he | he) | he | ⟨_, he⟩) | he | he | he
    · exact (fetchEvents_not_local node e he).2.2
    all_goals (subst he; rfl)
  simp only [ensureDir_stdin, hno, Bool.false_eq_true, if_false]
  cases hread : (ReadString 10 w.stdin).2.1 with
  | none =>
    refine ⟨⟨_, rfl⟩, fun _ => rfl, ?_, hevs, ensureDir_find _ _ _ _ hne⟩
    simp [FatalOnError]
  | some e =>
    refine ⟨⟨_, rfl⟩, fun h => by simp at h, ?_, hevs, ensureDir_find _ _ _ _ hne⟩
    simp [FatalOnError]

/-- C4, at the scenario: an installed kubeconfig, the answer "n". -/
theorem declined_overwrite_keeps_file_witness :
    (Run (demoApp demoDoc none) ⟨false, false⟩ [str "demo"] (installedHome (str "n\n"))).outcome
        = Outcome.fatal (str "aborted") ∧
      Event.ReadString ∈
        (Run (demoApp demoDoc none) ⟨false, false⟩ [str "demo"] (installedHome (str "n\n"))).events ∧
      (∀ e ∈ (Run (demoApp demoDoc none) ⟨false, false⟩ [str "demo"]
          (installedHome (str "n\n"))).events, e.isWrite = false) ∧
      find (Run (demoApp demoDoc none) ⟨false, false⟩ [str "demo"]
          (installedHome (str "n\n"))).world.fs (kubeconfigPath (str "/home/u"))
        = some (Entry.file (str "old")) := by
  have h := declined_overwrite_keeps_file (demoApp demoDoc none) ⟨false, false⟩ [str "demo"]
    (installedHome (str "n\n")) demoNode demoDoc (str "/home/u") (demo_Fetched demoDoc)
    rfl rfl rfl (by decide) (by decide)
  refine ⟨h.2.1 (by decide), h.2.2.1, h.2.2.2.1, ?_⟩
  rw [h.2.2.2.2]
  decide

/-- C5. Successful install writes exactly the rewritten document: in the install
branch the rewrite of the fetched text yields a document `content`; whenever the stat
of the target fails (the file is absent), or the force flag is on, or the force flag
is off, the stat succeeds and the first line on standard input (the bytes before the
first newline) contains `y` or `Y`, the command attempts one write of `content` to
`<home>/.kube/config` and returns normally, having read that line and no more in the
third case; and whenever that write is recorded as succeeded, the target file
afterwards holds exactly `content` and `<home>/.kube` is a directory, created by the
command if the first stat found it missing. -/
theorem install_writes_rewritten (app : AppConfig) (flags : Flags)
    (args : List GoString) (w : World) (node : Node) (out home line rest : GoString)
    (hf : Fetched app args node out) (hprint : flags.print = false)
    (hhome : w.homeDir = some home) :
    ∃ content, Replace out node.PrivateIPAddress node.IPAddress (-1) = some content ∧
      ((Stat w (kubeconfigPath home) ≠ none ∨ flags.force = true ∨
          (flags.force = false ∧ Stat w (kubeconfigPath home) = none ∧
            w.stdin = line ++ 10 :: rest ∧ 10 ∉ line ∧ (121 ∈ line ∨ 89 ∈ line))) →
        (Run app flags args w).outcome = Outcome.returned ∧
        ∃ err, Event.WriteFile (kubeconfigPath home) content err
          ∈ (Run app flags args w).events) ∧
      ((flags.force = false ∧ Stat w (kubeconfigPath home) = none ∧
          w.stdin = line ++ 10 :: rest ∧ 10 ∉ line ∧ (121 ∈ line ∨ 89 ∈ line)) →
        Event.ReadString ∈ (Run app flags args w).events ∧
        (Run app flags args w).world.stdin = rest) ∧
      ((∃ data, Event.WriteFile (kubeconfigPath home) data none
          ∈ (Run app flags args w).events) →
        find (Run app flags args w).world.fs (kubeconfigPath home)
          = some (Entry.file content) ∧
        find (Run app flags args w).world.fs (kubeDir home) = some Entry.dir ∧
        (Stat w (kubeDir home) = some Errno.ENOENT →
          Event.MkdirAll (kubeDir home) none ∈ (Run app flags args w).events)) := by
  obtain ⟨content, hc⟩ := Replace_total out node.PrivateIPAddress node.IPAddress
  have hne := kubeconfigPath_ne_kubeDir home
  have hyes : ∀ (_ : flags.force = false) (_ : Stat w (kubeconfigPath home) = none)
      (_ : w.stdin = line ++ 10 :: rest) (_ : 10 ∉ line) (_ : 121 ∈ line ∨ 89 ∈ line),
      confirmAndWrite flags.force (kubeconfigPath home) content
        (ensureDir (kubeDir home) w (fetchEvents node ++ [Event.Println (str "create file")])).1
        (ensureDir (kubeDir home) w (fetchEvents node ++ [Event.Println (str "create file")])).2
      = writeConfig (kubeconfigPath home) content
          { (ensureDir (kubeDir home) w
              (fetchEvents node ++ [Event.Println (str "create file")])).1 with stdin := rest }
          ((ensureDir (kubeDir home) w
              (fetchEvents node ++ [Event.Println (str "create file")])).2 ++
            [Event.Stat (kubeconfigPath home) none, Event.Println (str
              "There already exists a kubeconfig. Overwrite? (use -f to suppress this question) [yN]:"),
              Event.ReadString]) := by
    intro h1 h2 h3 h4 h5
    rw [h1, confirmAndWrite_prompt _ _ _ _ (by rw [ensureDir_Stat _ _ _ _ hne]; exact h2)]
    simp only [ensureDir_stdin, h3, ReadString_line rest line h4, FatalOnError,
      (ContainsAny_line line).mpr h5, if_true]
  refine ⟨content, hc, ?_, ?_, ?_⟩
  all_goals
    rw [Run_of_Fetched app flags args w node out content hf hc]
    simp only [hprint, Bool.false_eq_true, if_false]
    rw [installBranch_home flags.force content w _ home hhome]
  · intro hcond
    rcases hcond with h | h | ⟨h1, h2, h3, h4, h5⟩
    · rw [confirmAndWrite_noprompt _ _ _ _ _ (Or.inr (by rw [ensureDir_Stat _ _ _ _ hne]; exact h))]
      refine ⟨rfl, ?_⟩
      simp only [writeConfig, List.mem_append, List.mem_cons]
      exact ⟨_, Or.inr (Or.inl rfl)⟩
    · rw [confirmAndWrite_noprompt _ _ _ _ _ (Or.inl h)]
      refine ⟨rfl, ?_⟩
      simp only [writeConfig, List.mem_append, List.mem_cons]
      exact ⟨_, Or.inr (Or.inl rfl)⟩
    · rw [hyes h1 h2 h3 h4 h5]
      refine ⟨rfl, ?_⟩
      simp only [writeConfig, List.mem_append, List.mem_cons]
      exact ⟨_, Or.inr (Or.inl rfl)⟩
  · rintro ⟨h1, h2, h3, h4, h5⟩
    rw [hyes h1 h2 h3 h4 h5]
    refine ⟨by simp [writeConfig], ?_⟩
    simp only [writeConfig]
    rcases WriteFile_world { (ensureDir (kubeDir home) w
        (fetchEvents node ++ [Event.Println (str "create file")])).1 with stdin := rest }
        (kubeconfigPath home) content with ⟨_, h⟩ | ⟨_, _, h⟩
    · rw [h]
    · rw [h]
  · intro hw
    have hev : ∀ e ∈ (ensureDir (kubeDir home) w
        (fetchEvents node ++ [Event.Println (str "create file")])).2, e.isWrite = false := by
      intro e he
      simp only [ensureDir_events, List.mem_append, List.mem_singleton] at he
      rcases he with (he | he) | he | ⟨_, he⟩
      · exact (fetchEvents_not_local node e he).2.2
      all_goals (subst he; rfl)
    have hok := confirmAndWrite_ok flags.force (kubeconfigPath home) content _ _ hev hw
    rw [dirname_kubeconfigPath] at hok
    have hdir : find (confirmAndWrite flags.force (kubeconfigPath home) content
        (ensureDir (kubeDir home) w (fetchEvents node ++ [Event.Println (str "create file")])).1
        (ensureDir (kubeDir home) w (fetchEvents node ++ [Event.Println (str "create file")])).2
        ).world.fs (kubeDir home) = some Entry.dir := by
      rw [confirmAndWrite_find_other _ _ _ _ _ _ hne.symm]
      exact hok.2
    refine ⟨hok.1, hdir, ?_⟩
    intro hmiss
    -- the directory was missing: `MkdirAll` ran, and it must have succeeded
    have hnone := Stat_ENOENT w (kubeDir home) hmiss
    rcases ensureDir_world (kubeDir home) w
        (fetchEvents node ++ [Event.Println (str "create file")]) with h1 | ⟨_, h1⟩
    · exfalso
      have h2 := hok.2
      rw [h1, hnone] at h2
      simp at h2
    · have hmk : (MkdirAll w (kubeDir home)).1 = none := by
        rcases MkdirAll_world w (kubeDir home) with h3 | ⟨_, h3, _⟩
        · exfalso
          have h2 := hok.2
          rw [h1, h3, hnone] at h2
          simp at h2
        · exact h3
      have hin : Event.MkdirAll (kubeDir home) none ∈ (ensureDir (kubeDir home) w
          (fetchEvents node ++ [Event.Println (str "create file")])).2 := by
        rw [ensureDir_events]
        right; right
        exact ⟨hmiss, by rw [hmk]⟩
      exact confirmAndWrite_events_mono _ _ _ _ _ _ hin

/-- The scenario of the specification, run: force on, nothing installed before. The
command creates `/home/u/.kube`, writes the rewritten document and nothing else to
`/home/u/.kube/config`, and reads nothing from standard input. -/
theorem demo_scenario :
    Run (demoApp demoDoc none) ⟨false, true⟩ [str "demo"] (freshHome (str "n\n"))
      = ⟨Outcome.returned,
          ⟨[(str "/home/u/.kube/config", Entry.file (str "server: https://203.0.113.9:6443\n")),
            (str "/home/u/.kube", Entry.dir)], [], [], str "n\n", some (str "/home/u")⟩,
          [Event.CapturePassphrase (str "id_rsa"),
           Event.RunCmd demoNode (str "cat /etc/kubernetes/admin.conf"),
           Event.Println (str "create file"),
           Event.Stat (str "/home/u/.kube") (some Errno.ENOENT),
           Event.MkdirAll (str "/home/u/.kube") none,
           Event.Stat (str "/home/u/.kube/config") (some Errno.ENOENT),
           Event.WriteFile (str "/home/u/.kube/config")
             (str "server: https://203.0.113.9:6443\n") none,
           Event.Println (str "kubeconfig configured")]⟩ := by
  rw [Run_of_Fetched _ _ _ _ _ _ _ (demo_Fetched demoDoc) demo_rewrite]
  decide

/-- An overwrite confirmed: force off, a kubeconfig `old` installed, the answer `y`
on standard input. The command stats both paths, prompts, reads the line, and writes
the rewritten document over the old file. -/
theorem overwrite_scenario :
    Run (demoApp demoDoc none) ⟨false, false⟩ [str "demo"] (installedHome (str "y\n"))
      = ⟨Outcome.returned,
          ⟨[(str "/home/u/.kube/config", Entry.file (str "server: https://203.0.113.9:6443\n")),
            (str "/home/u/.kube/config", Entry.file (str "old")),
            (str "/home/u/.kube", Entry.dir)], [], [], [], some (str "/home/u")⟩,
          [Event.CapturePassphrase (str "id_rsa"),
           Event.RunCmd demoNode (str "cat /etc/kubernetes/admin.conf"),
           Event.Println (str "create file"),
           Event.Stat (str "/home/u/.kube") none,
           Event.Stat (str "/home/u/.kube/config") none,
           Event.Println (str
             "There already exists a kubeconfig. Overwrite? (use -f to suppress this question) [yN]:"),
           Event.ReadString,
           Event.WriteFile (str "/home/u/.kube/config")
             (str "server: https://203.0.113.9:6443\n") none,
           Event.Println (str "kubeconfig configured")]⟩ := by
  rw [Run_of_Fetched _ _ _ _ _ _ _ (demo_Fetched demoDoc) demo_rewrite]
  decide

/-- C5, at two scenarios. First the scenario of the specification: force on, no file
and no directory before; the command returns normally, `/home/u/.kube/config` holds
exactly the rewritten document and `/home/u/.kube` is a directory that the command
created. Second an overwrite: force off, a kubeconfig `old` installed, the answer `y`
on standard input; the command returns normally, has read the answer and consumed
it, and `/home/u/.kube/config` holds exactly the rewritten document. -/
theorem install_writes_rewritten_witness :
    ((Run (demoApp demoDoc none) ⟨false, true⟩ [str "demo"] (freshHome (str "n\n"))).outcome
        = Outcome.returned ∧
      find (Run (demoApp demoDoc none) ⟨false, true⟩ [str "demo"]
          (freshHome (str "n\n"))).world.fs (kubeconfigPath (str "/home/u"))
        = some (Entry.file (str "server: https://203.0.113.9:6443\n")) ∧
      find (Run (demoApp demoDoc none) ⟨false, true⟩ [str "demo"]
          (freshHome (str "n\n"))).world.fs (kubeDir (str "/home/u")) = some Entry.dir ∧
      Event.MkdirAll (kubeDir (str "/home/u")) none
        ∈ (Run (demoApp demoDoc none) ⟨false, true⟩ [str "demo"]
            (freshHome (str "n\n"))).events) ∧
    (find (installedHome (str "y\n")).fs (kubeconfigPath (str "/home/u"))
        = some (Entry.file (str "old")) ∧
      (Run (demoApp demoDoc none) ⟨false, false⟩ [str "demo"]
          (installedHome (str "y\n"))).outcome = Outcome.returned ∧
      Event.ReadString ∈ (Run (demoApp demoDoc none) ⟨false, false⟩ [str "demo"]
          (installedHome (str "y\n"))).events ∧
      (Run (demoApp demoDoc none) ⟨false, false⟩ [str "demo"]
          (installedHome (str "y\n"))).world.stdin = [] ∧
      find (Run (demoApp demoDoc none) ⟨false, false⟩ [str "demo"]
          (installedHome (str "y\n"))).world.fs (kubeconfigPath (str "/home/u"))
        = some (Entry.file (str "server: https://203.0.113.9:6443\n"))) := by
  constructor
  · obtain ⟨content, hc, h1, _, h2⟩ :=
      install_writes_rewritten (demoApp demoDoc none) ⟨false, true⟩ [str "demo"]
        (freshHome (str "n\n")) demoNode demoDoc (str "/home/u") (str "n") []
        (demo_Fetched demoDoc) rfl rfl
    have hcontent : content = str "server: https://203.0.113.9:6443\n" := by
      have := hc.symm.trans demo_rewrite
      exact Option.some.inj this
    have hw : ∃ data, Event.WriteFile (kubeconfigPath (str "/home/u")) data none
        ∈ (Run (demoApp demoDoc none) ⟨false, true⟩ [str "demo"]
            (freshHome (str "n\n"))).events :=
      ⟨str "server: https://203.0.113.9:6443\n", by rw [demo_scenario]; decide⟩
    obtain ⟨g1, g2, g3⟩ := h2 hw
    exact ⟨(h1 (Or.inr (Or.inl rfl))).1, by rw [g1, hcontent], g2, g3 (by decide)⟩
  · obtain ⟨content, hc, h1, h3, h2⟩ :=
      install_writes_rewritten (demoApp demoDoc none) ⟨false, false⟩ [str "demo"]
        (installedHome (str "y\n")) demoNode demoDoc (str "/home/u") (str "y") []
        (demo_Fetched demoDoc) rfl rfl
    have hcontent : content = str "server: https://203.0.113.9:6443\n" := by
      have := hc.symm.trans demo_rewrite
      exact Option.some.inj this
    have hyes : (⟨false, false⟩ : Flags).force = false ∧
        Stat (installedHome (str "y\n")) (kubeconfigPath (str "/home/u")) = none ∧
        (installedHome (str "y\n")).stdin = str "y" ++ 10 :: [] ∧ 10 ∉ str "y" ∧
        (121 ∈ str "y" ∨ 89 ∈ str "y") := by decide
    have hw : ∃ data, Event.WriteFile (kubeconfigPath (str "/home/u")) data none
        ∈ (Run (demoApp demoDoc none) ⟨false, false⟩ [str "demo"]
            (installedHome (str "y\n"))).events :=
      ⟨str "server: https://203.0.113.9:6443\n", by rw [overwrite_scenario]; decide⟩
    obtain ⟨g1, _, _⟩ := h2 hw
    exact ⟨by decide, (h1 (Or.inr (Or.inr hyes))).1, (h3 hyes).1, (h3 hyes).2,
      by rw [g1, hcontent]⟩

/-- C6. Force suppresses the prompt: the confirmation line is read from standard
input if and only if the force flag is off and the stat of the target file
`<home>/.kube/config` has succeeded; with the force flag on nothing is read and
standard input is left as it was, whether or not the target exists. -/
theorem force_suppresses_prompt (app : AppConfig) (flags : Flags) (args : List GoString)
    (w : World) (home : GoString) (hhome : w.homeDir = some home) :
    (Event.ReadString ∈ (Run app flags args w).events ↔
        (flags.force = false ∧
          Event.Stat (kubeconfigPath home) none ∈ (Run app flags args w).events)) ∧
      (flags.force = true →
        Event.ReadString ∉ (Run app flags args w).events ∧
        (Run app flags args w).world.stdin = w.stdin) := by
  rcases Run_cases app flags args w with ⟨node, out, hf⟩ | ⟨hw, _, hev⟩
  · obtain ⟨content, hc⟩ := Replace_total out node.PrivateIPAddress node.IPAddress
    rw [Run_of_Fetched app flags args w node out content hf hc]
    by_cases hp : flags.print = true
    · simp only [hp, if_true]
      have hnl : ∀ e ∈ (printBranch app content w (fetchEvents node)).events,
          e.isLocal = false := by
        intro e he
        unfold printBranch at he
        split at he
        · exact (fetchEvents_not_local node e he).1
        · simp only [List.mem_append, List.mem_singleton] at he
          rcases he with he | he
          · exact (fetchEvents_not_local node e he).1
          · subst he; rfl
      have hw : (printBranch app content w (fetchEvents node)).world = w := by
        unfold printBranch
        split <;> rfl
      have h1 : Event.ReadString ∉ (printBranch app content w (fetchEvents node)).events :=
        fun h => by simpa [Event.isLocal] using hnl _ h
      have h2 : Event.Stat (kubeconfigPath home) none
          ∉ (printBranch app content w (fetchEvents node)).events :=
        fun h => by simpa [Event.isLocal] using hnl _ h
      refine ⟨⟨fun h => absurd h h1, fun h => absurd h.2 h2⟩, fun _ => ⟨h1, by rw [hw]⟩⟩
    · have hp' : flags.print = false := by simpa using hp
      simp only [hp', Bool.false_eq_true, if_false]
      rw [installBranch_home flags.force content w _ home hhome]
      have hne := kubeconfigPath_ne_kubeDir home
      have hnr : Event.ReadString ∉ (ensureDir (kubeDir home) w
          (fetchEvents node ++ [Event.Println (str "create file")])).2 := by
        intro he
        simp only [ensureDir_events, List.mem_append, List.mem_singleton] at he
        rcases he with (he | he) | he | ⟨_, he⟩
        · simpa [Event.isLocal] using (fetchEvents_not_local node _ he).1
        all_goals simp at he
      have hns : Event.Stat (kubeconfigPath home) none ∉ (ensureDir (kubeDir home) w
          (fetchEvents node ++ [Event.Println (str "create file")])).2 := by
        intro he
        simp only [ensureDir_events, List.mem_append, List.mem_singleton] at he
        rcases he with (he | he) | he | ⟨_, he⟩
        · simpa [Event.isLocal] using (fetchEvents_not_local node _ he).1
        · simp at he
        · simp only [Event.Stat.injEq] at he
          exact hne he.1
        · simp at he
      have hread := confirmAndWrite_read flags.force (kubeconfigPath home) content
        (ensureDir (kubeDir home) w (fetchEvents node ++ [Event.Println (str "create file")])).1
        (ensureDir (kubeDir home) w (fetchEvents node ++ [Event.Println (str "create file")])).2
        hnr
      have hstat := confirmAndWrite_Stat_event flags.force (kubeconfigPath home) content
        (ensureDir (kubeDir home) w (fetchEvents node ++ [Event.Println (str "create file")])).1
        (ensureDir (kubeDir home) w (fetchEvents node ++ [Event.Println (str "create file")])).2
        (kubeconfigPath home) none
      refine ⟨?_, ?_⟩
      · rw [hread, hstat]
        constructor
        · rintro ⟨h1, h2⟩
          exact ⟨h1, Or.inr ⟨rfl, h2.symm⟩⟩
        · rintro ⟨h1, h2 | ⟨_, h2⟩⟩
          · exact absurd h2 hns
          · exact ⟨h1, h2.symm⟩
      · intro hforce
        refine ⟨fun h => ?_, ?_⟩
        · have := hread.mp h
          rw [hforce] at this
          simp at this
        · rw [confirmAndWrite_noprompt _ _ _ _ _ (Or.inl hforce)]
          simp only [writeConfig, WriteFile_stdin, ensureDir_stdin]
  · have h1 : Event.ReadString ∉ (Run app flags args w).events :=
      fun h => by simpa [Event.isLocal] using (hev _ h).1
    have h2 : Event.Stat (kubeconfigPath home) none ∉ (Run app flags args w).events :=
      fun h => by simpa [Event.isLocal] using (hev _ h).1
    refine ⟨⟨fun h => absurd h h1, fun h => absurd h.2 h2⟩, fun _ => ⟨h1, by rw [hw]⟩⟩

/-- C6, at the scenario: force on, an installed kubeconfig, "y" waiting on standard
input. Nothing is read, and the "y" is still there afterwards. -/
theorem force_suppresses_prompt_witness :
    Event.ReadString ∉ (Run (demoApp demoDoc none) ⟨false, true⟩ [str "demo"]
        (installedHome (str "y\n"))).events ∧
      (Run (demoApp demoDoc none) ⟨false, true⟩ [str "demo"]
        (installedHome (str "y\n"))).world.stdin = str "y\n" :=
  (force_suppresses_prompt (demoApp demoDoc none) ⟨false, true⟩ [str "demo"]
    (installedHome (str "y\n")) (str "/home/u") rfl).2 rfl

/-- C7. Print mode never touches the filesystem: with the print flag on, whatever the
force flag and whatever is installed, the world after the command (filesystem and
standard input) is the world before it, and no stat, directory creation, read of
standard input or file write is among its events. -/
theorem print_touches_nothing (app : AppConfig) (flags : Flags) (args : List GoString)
    (w : World) (hprint : flags.print = true) :
    (Run app flags args w).world = w ∧
      ∀ e ∈ (Run app flags args w).events, e.isLocal = false := by
  rcases Run_cases app flags args w with ⟨node, out, hf⟩ | ⟨hw, _, hev⟩
  · obtain ⟨content, hc⟩ := Replace_total out node.PrivateIPAddress node.IPAddress
    rw [Run_of_Fetched app flags args w node out content hf hc]
    simp only [hprint, if_true]
    unfold printBranch
    split
    · exact ⟨rfl, fun e he => (fetchEvents_not_local node e he).1⟩
    · refine ⟨rfl, fun e he => ?_⟩
      simp only [List.mem_append, List.mem_singleton] at he
      rcases he with he | he
      · exact (fetchEvents_not_local node e he).1
      · subst he; rfl
  · exact ⟨hw, fun e he => (hev e he).1⟩

/-- C7, at the scenario: print flag on, an installed kubeconfig. -/
theorem print_touches_nothing_witness :
    (Run (demoApp demoDoc none) ⟨true, false⟩ [str "demo"] (installedHome (str "y\n"))).world
        = installedHome (str "y\n") ∧
      ∀ e ∈ (Run (demoApp demoDoc none) ⟨true, false⟩ [str "demo"]
          (installedHome (str "y\n"))).events, e.isLocal = false :=
  print_touches_nothing (demoApp demoDoc none) ⟨true, false⟩ [str "demo"]
    (installedHome (str "y\n")) rfl

/-- C8. Validation gate: for every identifier and every directory lookup,
`validateKubeconfigCmd` returns (it does not panic), and it returns an error if and
only if the identifier is empty or `FindClusterByName` reports index `-1` for it; for a
non-empty identifier with index `-1` the error is "cluster '<identifier>' not found";
the world is left as it was and no event (so no remote call) has happened. -/
theorem validate_gate (app : AppConfig) (name : GoString) (rest : List GoString) (w : World) :
    (∃ ret, (validateKubeconfigCmd app (name :: rest) w).ret = some ret ∧
        (ret ≠ none ↔ (name = [] ∨ (app.FindClusterByName name).1 = -1))) ∧
      ((name ≠ [] ∧ (app.FindClusterByName name).1 = -1) →
        (validateKubeconfigCmd app (name :: rest) w).ret
          = some (some (str "cluster " ++ [39] ++ name ++ [39] ++ str " not found"))) ∧
      (validateKubeconfigCmd app (name :: rest) w).world = w ∧
      (validateKubeconfigCmd app (name :: rest) w).events = [] := by
  unfold validateKubeconfigCmd
  by_cases h1 : name = []
  · simp [h1]
  · by_cases h2 : (app.FindClusterByName name).1 = -1
    · simp [h1, h2]
    · simp [h1, h2]

/-- The concrete case of C8: the identifier "nope" is not in the demo directory. -/
theorem validate_unknown_cluster :
    (validateKubeconfigCmd (demoApp demoDoc none) [str "nope"] (freshHome [])).ret
      = some (some (str "cluster \x27nope\x27 not found")) := by
  decide

/-- C9, the code at two failing inputs. First `/home/u/.kube` is a regular file, so the
write of `/home/u/.kube/config` fails (`ENOTDIR`), nothing is written, and yet the
command goes on to print "kubeconfig configured" and returns normally. Second
`/home/u` is read-only and has no `.kube`: creating the directory fails (`EACCES`),
the command goes on all the same, the write fails (`ENOENT`), nothing is created, and
again the command prints "kubeconfig configured" and returns normally. -/
theorem write_failure_reported_as_success :
    Run (demoApp demoDoc none) ⟨false, true⟩ [str "demo"] (blockedHome [])
      = ⟨Outcome.returned, blockedHome [],
          [Event.CapturePassphrase (str "id_rsa"),
           Event.RunCmd demoNode (str "cat /etc/kubernetes/admin.conf"),
           Event.Println (str "create file"),
           Event.Stat (str "/home/u/.kube") none,
           Event.Stat (str "/home/u/.kube/config") (some Errno.ENOTDIR),
           Event.WriteFile (str "/home/u/.kube/config")
             (str "server: https://203.0.113.9:6443\n") (some Errno.ENOTDIR),
           Event.Println (str "kubeconfig configured")]⟩ ∧
    Run (demoApp demoDoc none) ⟨false, true⟩ [str "demo"] (readOnlyHome [])
      = ⟨Outcome.returned, readOnlyHome [],
          [Event.CapturePassphrase (str "id_rsa"),
           Event.RunCmd demoNode (str "cat /etc/kubernetes/admin.conf"),
           Event.Println (str "create file"),
           Event.Stat (str "/home/u/.kube") (some Errno.ENOENT),
           Event.MkdirAll (str "/home/u/.kube") (some Errno.EACCES),
           Event.Stat (str "/home/u/.kube/config") (some Errno.ENOENT),
           Event.WriteFile (str "/home/u/.kube/config")
             (str "server: https://203.0.113.9:6443\n") (some Errno.ENOENT),
           Event.Println (str "kubeconfig configured")]⟩ := by
  constructor
  · rw [Run_of_Fetched _ _ _ _ _ _ _ (demo_Fetched demoDoc) demo_rewrite]
    decide
  · rw [Run_of_Fetched _ _ _ _ _ _ _ (demo_Fetched demoDoc) demo_rewrite]
    decide

/-- The defect behind C9 in general: in the install branch with the force flag on, the
command returns normally and prints "kubeconfig configured" whatever the results of
`os.MkdirAll` and `ioutil.WriteFile` were; a failed write leaves the world as the
directory step left it. -/
theorem install_ignores_local_errors (app : AppConfig) (flags : Flags)
    (args : List GoString) (w : World) (node : Node) (out home : GoString)
    (hf : Fetched app args node out) (hprint : flags.print = false)
    (hforce : flags.force = true) (hhome : w.homeDir = some home) :
    (Run app flags args w).outcome = Outcome.returned ∧
      Event.Println (str "kubeconfig configured") ∈ (Run app flags args w).events := by
  obtain ⟨content, hc⟩ := Replace_total out node.PrivateIPAddress node.IPAddress
  rw [Run_of_Fetched app flags args w node out content hf hc]
  simp only [hprint, Bool.false_eq_true, if_false]
  rw [installBranch_home flags.force content w _ home hhome,
    confirmAndWrite_noprompt _ _ _ _ _ (Or.inl hforce)]
  exact ⟨rfl, by simp [writeConfig]⟩

/-- C10 as stated fails: the remote command returns an empty output and a nil error;
the command does not stop, it creates the directory, writes an empty target file and
prints "kubeconfig configured". -/
theorem empty_output_is_installed :
    Run (demoApp [] none) ⟨false, false⟩ [str "demo"] (freshHome [])
      = ⟨Outcome.returned,
          ⟨[(str "/home/u/.kube/config", Entry.file []), (str "/home/u/.kube", Entry.dir)],
            [], [], [], some (str "/home/u")⟩,
          [Event.CapturePassphrase (str "id_rsa"),
           Event.RunCmd demoNode (str "cat /etc/kubernetes/admin.conf"),
           Event.Println (str "create file"),
           Event.Stat (str "/home/u/.kube") (some Errno.ENOENT),
           Event.MkdirAll (str "/home/u/.kube") none,
           Event.Stat (str "/home/u/.kube/config") (some Errno.ENOENT),
           Event.WriteFile (str "/home/u/.kube/config") [] none,
           Event.Println (str "kubeconfig configured")]⟩ := by
  rw [Run_of_Fetched _ _ _ _ _ _ _ (demo_Fetched []) empty_rewrite]
  decide

/-- C10, amended. Remote failure is terminal and writes nothing: when the cluster and
its master node are found, the passphrase is captured and the remote read command
returns a non-nil error, the command ends with that error as a fatal failure before
the print or install branch: the world is as it was and the only events are the
passphrase capture and the remote command (nothing printed, no stat, no directory,
no read of standard input, no write). -/
theorem remote_error_is_fatal (app : AppConfig) (flags : Flags) (args : List GoString)
    (w : World) (name : GoString) (rest : List GoString) (cluster : Cluster) (node : Node)
    (out e : GoString) (hargs : args = name :: rest)
    (h1 : (app.FindClusterByName name).2 = some cluster)
    (h2 : app.GetMasterNode cluster = (some node, none))
    (h3 : app.CapturePassphrase node.SSHKeyName = none)
    (h4 : app.RunCmd node adminConf = (out, some e)) :
    Run app flags args w = ⟨Outcome.fatal e, w, fetchEvents node⟩ := by
  obtain ⟨content, hc⟩ := Replace_total out node.PrivateIPAddress node.IPAddress
  subst hargs
  have h4' : app.RunCmd node (str "cat /etc/kubernetes/admin.conf") = (out, some e) := h4
  simp only [Run, h1, h2, h3, h4', hc, FatalOnError, fetchEvents, adminConf,
    List.singleton_append]

/-- C10 amended, at the scenario: the remote command fails with "exit status 1". -/
theorem remote_error_is_fatal_witness :
    Run (demoApp [] (some (str "exit status 1"))) ⟨false, true⟩ [str "demo"] (freshHome [])
      = ⟨Outcome.fatal (str "exit status 1"), freshHome [], fetchEvents demoNode⟩ :=
  remote_error_is_fatal (demoApp [] (some (str "exit status 1"))) ⟨false, true⟩ [str "demo"]
    (freshHome []) (str "demo") [] ⟨str "demo"⟩ demoNode [] (str "exit status 1")
    rfl rfl rfl rfl rfl

end HetznerKube
